import Mathlib

/-!
Verification of the gradient-boosted-tree prediction decomposition engine of
eli5 (src/eli5/xgboost.py): a shallow embedding of `parse_tree_dump`,
`_parse_dump_line`, `indexed_leafs`, `target_feature_weights` and
`prediction_feature_weights`, together with theorems settling the claims of
the specification.

Modelling conventions:
* Python floats are modelled as exact rationals (ℚ); the dump values are
  decimal literals, parsed exactly.
* Python exceptions are modelled by an `Except PyErr` result; the constructors
  of `PyErr` record the Python exception class raised.
* Python dicts built per dump line are modelled by `LineNode`; the key set of
  a branch-line dict and of a leaf-line dict differ exactly as in the source.
* The mutable `children` key (created by `setdefault` only when a child is
  appended) is modelled by the child list of `Tree.node`: the key is absent
  iff the list is empty, which is faithful because the source creates the key
  and appends in one statement.
* The in-place mutation performed by `indexed_leafs` (setting `parent`
  back-references and the aggregate `leaf` value) is modelled functionally:
  the returned index carries, for each indexed leaf, the leaf node and its
  materialized parent chain, each entry holding the final value of its `leaf`
  key, which is what `target_feature_weights` reads after indexing completes.
* Strings are lists of characters; `re` patterns of the source are modelled by
  deterministic matchers (the patterns involved are backtracking-free).
* `float()` is modelled on the core decimal grammar
  sign digits [. digits] [e sign digits]; the inf/nan/underscore/whitespace
  forms accepted by Python cannot occur in the claims under study.
-/

namespace Eli5Xgb

/-- Python exception classes that the embedded code can raise. -/
inductive PyErr where
  | valueError (msg : String)
  | assertionError
  | attributeError
  | indexError
  | typeError
  | keyError (key : String)
deriving Repr, DecidableEq

instance {ε α : Type} [DecidableEq ε] [DecidableEq α] : DecidableEq (Except ε α) := by
  intro a b
  cases a <;> cases b
  case error.error x y => exact decidable_of_iff (x = y) (by simp)
  case ok.ok x y => exact decidable_of_iff (x = y) (by simp)
  all_goals exact isFalse (by simp)

/-- The dict built by `_parse_dump_line` for one dump line.  A branch line
carries the keys `depth`, `nodeid`, `split`, `split_condition`, `yes`, `no`,
`missing`; a leaf line carries `nodeid` and `leaf`. -/
inductive LineNode where
  | branch (depth : Nat) (nodeid : Nat) (split : List Char) (split_condition : ℚ)
      (yes : Nat) (no : Nat) (missing : Nat)
  | leaf (nodeid : Nat) (value : ℚ)
deriving Repr, DecidableEq

/-- A parsed tree: the node dict plus the list under its `children` key;
the key is absent iff the list is empty (see module docstring). -/
inductive Tree where
  | node (data : LineNode) (children : List Tree)

/-- Python `str.split` on a newline: always returns at least one piece. -/
def splitLines : List Char → List (List Char)
  | [] => [[]]
  | c :: r =>
    if c = '\n' then [] :: splitLines r
    else
      match splitLines r with
      | l :: ls => (c :: l) :: ls
      | [] => [[c]]

/-- Value of a nonempty decimal digit string, as `int()` computes it. -/
def natOfDigits (ds : List Char) : Nat :=
  ds.foldl (fun a c => 10 * a + (c.toNat - 48)) 0

/-- `\w` of the source regex (ASCII fragment). -/
def isWordChar (c : Char) : Bool := c.isAlphanum || c = '_'

/-- Structural take-while/drop-while pair, used to model the greedy character
classes of the source regexes (each is followed by a character outside the
class, so matching is deterministic). -/
def spanP (p : Char → Bool) : List Char → List Char × List Char
  | [] => ([], [])
  | c :: cs =>
    if p c then
      let r := spanP p cs
      (c :: r.1, r.2)
    else ([], c :: cs)

/-- Consume an exact literal fragment of the regex, or fail. -/
def dropLit : List Char → List Char → Option (List Char)
  | [], s => some s
  | c :: cs, d :: ds => if c = d then dropLit cs ds else none
  | _ :: _, [] => none

/-- The exact value of the decimal literal
`sign · ip.fp · 10^ex` that `float()` returns on the matched pieces. -/
def decVal (sgn : ℚ) (ip fp : List Char) (ex : ℤ) : ℚ :=
  let mant : ℚ := (natOfDigits ip : ℚ) + (natOfDigits fp : ℚ) / (10 : ℚ) ^ fp.length
  if 0 ≤ ex then sgn * mant * (10 : ℚ) ^ ex.toNat
  else sgn * mant / (10 : ℚ) ^ (-ex).toNat

/-- Exponent part of a float literal: optional sign then nonempty digits. -/
def pyExp (s : List Char) : Option (ℤ × List Char) :=
  let p : ℤ × List Char :=
    match s with
    | '+' :: r => (1, r)
    | '-' :: r => (-1, r)
    | _ => (1, s)
  let q := spanP Char.isDigit p.2
  if q.1 = [] then none else some (p.1 * (natOfDigits q.1 : ℤ), q.2)

/-- Python `float()` on its core decimal grammar (see module docstring). -/
def pyFloat (s : List Char) : Option ℚ :=
  let p : ℚ × List Char :=
    match s with
    | '+' :: r => (1, r)
    | '-' :: r => (-1, r)
    | _ => (1, s)
  let ipr := spanP Char.isDigit p.2
  let fpr : List Char × List Char :=
    match ipr.2 with
    | '.' :: r => spanP Char.isDigit r
    | _ => ([], ipr.2)
  let rest : List Char := if ipr.2 ≠ [] ∧ ipr.2.headI = '.' then fpr.2 else ipr.2
  if ipr.1 = [] ∧ (ipr.2.headI ≠ '.' ∨ fpr.1 = []) then none
  else
    let er : Option (ℤ × List Char) :=
      match rest with
      | 'e' :: r => pyExp r
      | 'E' :: r => pyExp r
      | _ => some (0, rest)
    match er with
    | none => none
    | some (ex, r3) => if r3 = [] then some (decVal p.1 ipr.1 fpr.1 ex) else none

/-- Matcher for the branch-line regex
tabs, digits, colon-bracket, word chars, the literal less-than sign, chars
other than the closing bracket, then the bracket and the yes/no/missing
fields.  Returns (tab count, node id, split token, threshold token,
yes, no, missing). -/
def matchBranch (line : List Char) :
    Option (Nat × Nat × List Char × List Char × Nat × Nat × Nat) :=
  let tb := spanP (fun c => c = '\t') line
  let ds := spanP Char.isDigit tb.2
  if ds.1 = [] then none
  else
    match dropLit [':', '['] ds.2 with
    | none => none
    | some r2 =>
      let ft := spanP isWordChar r2
      if ft.1 = [] then none
      else
        match dropLit ['<'] ft.2 with
        | none => none
        | some r4 =>
          let cd := spanP (fun c => !(c = ']')) r4
          if cd.1 = [] then none
          else
            match dropLit [']', ' ', 'y', 'e', 's', '='] cd.2 with
            | none => none
            | some r6 =>
              let ys := spanP Char.isDigit r6
              if ys.1 = [] then none
              else
                match dropLit [',', 'n', 'o', '='] ys.2 with
                | none => none
                | some r8 =>
                  let ns := spanP Char.isDigit r8
                  if ns.1 = [] then none
                  else
                    match dropLit [',', 'm', 'i', 's', 's', 'i', 'n', 'g', '='] ns.2 with
                    | none => none
                    | some r10 =>
                      let ms := spanP Char.isDigit r10
                      if ms.1 = [] then none
                      else if ms.2 = [] then
                        some (tb.1.length, natOfDigits ds.1, ft.1, cd.1,
                          natOfDigits ys.1, natOfDigits ns.1, natOfDigits ms.1)
                      else none

/-- Matcher for the leaf-line regex: tabs, digits, the literal fragment
colon-leaf-equals, then anything.  Returns (tab count, node id, value token). -/
def matchLeaf (line : List Char) : Option (Nat × Nat × List Char) :=
  let tb := spanP (fun c => c = '\t') line
  let ds := spanP Char.isDigit tb.2
  if ds.1 = [] then none
  else
    match dropLit [':', 'l', 'e', 'a', 'f', '='] ds.2 with
    | none => none
    | some r2 => some (tb.1.length, natOfDigits ds.1, r2)

/-- `_parse_dump_line`: try the branch shape, then the leaf shape, else raise
ValueError naming the line; `float()` on a matched numeric token can itself
raise ValueError. -/
def _parse_dump_line (line : List Char) : Except PyErr (Nat × LineNode) :=
  match matchBranch line with
  | some (d, nid, feat, cond, y, n, m) =>
    match pyFloat cond with
    | some q => .ok (d, .branch d nid feat q y n m)
    | none => .error (.valueError (("could not convert string to float: ") ++ cond.asString))
  | none =>
    match matchLeaf line with
    | some (d, nid, v) =>
      match pyFloat v with
      | some q => .ok (d, .leaf nid q)
      | none => .error (.valueError (("could not convert string to float: ") ++ v.asString))
    | none => .error (.valueError (("Line in unexpected format: ") ++ line.asString))

/-- One stack entry of `parse_tree_dump`: a node dict under construction and
the children attached to it so far (in order). -/
abbrev StackEntry := LineNode × List Tree

/-- Pop `k` completed entries off the top of the stack, attaching each popped
node to the entry below it, as the dicts discarded by `stack = stack[:depth]`
remain attached to their parents. -/
def popN : Nat → List StackEntry → List StackEntry
  | 0, st => st
  | k + 1, (cd, ccs) :: (pd, pcs) :: rest => popN k ((pd, pcs ++ [Tree.node cd ccs]) :: rest)
  | _ + 1, st => st

/-- Truncate the stack to length `d` (`stack = stack[:depth]`). -/
def collapseTo (st : List StackEntry) (d : Nat) : List StackEntry :=
  popN (st.length - d) st

/-- One iteration of the line loop of `parse_tree_dump` (empty lines are
skipped by the `if line` guard).  The stack is kept top-first. -/
def parseStep (st : List StackEntry) (line : List Char) : Except PyErr (List StackEntry) :=
  if line = [] then .ok st
  else
    match _parse_dump_line line with
    | .error e => .error e
    | .ok (depth, node) =>
      if depth = 0 then
        match st with
        | [] => .ok [(node, [])]
        | _ => .error .assertionError
      else if st.length < depth then .error (.valueError ("Unexpected dump structure"))
      else .ok ((node, []) :: collapseTo st depth)

/-- Rebuild the root dict from the final stack: `result` aliases the bottom
entry, with all children attached. -/
def finalize (st : List StackEntry) : Option Tree :=
  match collapseTo st 1 with
  | [(d, cs)] => some (Tree.node d cs)
  | _ => none

/-- The line loop of `parse_tree_dump`: thread the stack through
`parseStep`, aborting at the first raised error. -/
def parseLines (st : List StackEntry) : List (List Char) → Except PyErr (List StackEntry)
  | [] => .ok st
  | l :: ls =>
    match parseStep st l with
    | .error e => .error e
    | .ok st2 => parseLines st2 ls

/-- `parse_tree_dump`: run the line loop over the split dump and return the
root (or `None` when no nonempty line occurred). -/
def parse_tree_dump (s : List Char) : Except PyErr (Option Tree) :=
  match parseLines [] (splitLines s) with
  | .error e => .error e
  | .ok st => .ok (finalize st)

/-- A node as observed through the index after `indexed_leafs` has finished:
its dict and the final value of its `leaf` key. -/
structure ANode where
  data : LineNode
  agg : ℚ
deriving Repr, DecidableEq

instance : Inhabited ANode := ⟨⟨LineNode.leaf 0 0, 0⟩⟩

/-- The whole tree after `indexed_leafs` has finished: each node keeps its
dict and the final value of its `leaf` key — `none` when the node never had
that key (an unvisited branch node). -/
inductive ATree where
  | node (data : LineNode) (agg : Option ℚ) (children : List ATree)

/-- One entry of the leaf index: node id, the leaf node, and its `parent`
chain (nearest ancestor first, root last). -/
abbrev IndexEntry := Nat × ANode × List ANode

/-- `np.mean` of a (nonempty) list of floats. -/
def qmean (vs : List ℚ) : ℚ := vs.sum / (vs.length : ℚ)

mutual
/-- A subtree never visited by `indexed_leafs` keeps its parse-time keys:
a leaf dict already has its `leaf` value, a branch dict has none. -/
def castA : Tree → ATree
  | .node (.leaf nid v) cs => .node (.leaf nid v) (some v) (castAL cs)
  | .node d cs => .node d none (castAL cs)
def castAL : List Tree → List ATree
  | [] => []
  | t :: ts => castA t :: castAL ts
end

mutual
/-- Recursion of `indexed_leafs` on a visited node: demand the `children`
key, process the children in order (a child with a `leaf` key is indexed
without recursion, any other child is recursed into), then set this node's
`leaf` key to the mean of the children's `leaf` values.  Returns the index
entries collected below this node (the node itself appended to each parent
chain), the annotated children, and this node's final `leaf` value. -/
def idxTree : Tree → Except PyErr (List IndexEntry × List ATree × ℚ)
  | .node d cs =>
    match cs with
    | [] => .error (.keyError ("children"))
    | _ :: _ =>
      match idxKids cs with
      | .error e => .error e
      | .ok r =>
        let agg := qmean (r.map (fun x => x.2.2))
        let self : ANode := ⟨d, agg⟩
        .ok ((r.map (fun x => x.1)).flatten.map (fun e => (e.1, e.2.1, e.2.2 ++ [self])),
          r.map (fun x => x.2.1), agg)
/-- Loop of `indexed_leafs` over `parent['children']`; per child it yields
its index entries, its annotated tree and the final value of its `leaf`
key: a child with a `leaf` key is indexed without recursion (its subtree is
not visited), any other child is recursed into. -/
def idxKids : List Tree → Except PyErr (List (List IndexEntry × ATree × ℚ))
  | [] => .ok []
  | Tree.node (LineNode.leaf nid v) ccs :: rest =>
    match idxKids rest with
    | .error e => .error e
    | .ok t =>
      .ok (([(nid, (⟨LineNode.leaf nid v, v⟩ : ANode), ([] : List ANode))],
        castA (Tree.node (LineNode.leaf nid v) ccs), v) :: t)
  | Tree.node cd ccs :: rest =>
    match idxTree (Tree.node cd ccs) with
    | .error e => .error e
    | .ok x =>
      match idxKids rest with
      | .error e => .error e
      | .ok t => .ok ((x.1, ATree.node cd (some x.2.2) x.2.1, x.2.2) :: t)
end

/-- `indexed_leafs`: the leaf index of a parsed tree. -/
def indexed_leafs (t : Tree) : Except PyErr (List IndexEntry) :=
  (idxTree t).map (fun x => x.1)

/-- `indexed_leafs` observed together with the mutated tree: the root's
`leaf` key is set to the mean of its children like every visited node. -/
def indexed_full (t : Tree) : Except PyErr (List IndexEntry × ATree) :=
  match t with
  | .node d _ => (idxTree t).map (fun x => (x.1, ATree.node d (some x.2.2) x.2.1))

/-- Python dict lookup on the index: assignments and `update` let the
latest binding of a node id win. -/
def dictGet (idx : List IndexEntry) (k : Nat) : Option (ANode × List ANode) :=
  (idx.reverse.find? (fun e => e.1 = k)).map (fun e => e.2)

/-- The caller-supplied feature names object: a token list plus the
reserved bias index; the source reads only its length and `bias_idx`. -/
structure FeatureNames where
  names : List (List Char)
  bias_idx : ℤ
deriving Repr, DecidableEq

def FeatureNames.len (fn : FeatureNames) : Nat := fn.names.length

/-- Token-to-index lookup of the feature-name mapping (what the spec calls
`feature_index`); the source never invokes it. -/
def FeatureNames.lookup (fn : FeatureNames) (tok : List Char) : Option Nat :=
  fn.names.findIdx? (fun nm => nm = tok)

/-- `re.search` of the anchored pattern f-digits on the split token:
the token value when it is an f followed by one or more digits. -/
def fMatch : List Char → Option Nat
  | 'f' :: rest =>
    if rest = [] then none
    else if rest.all Char.isDigit then some (natOfDigits rest) else none
  | _ => none

/-- `parent['split']`: a KeyError on a dict without the `split` key. -/
def splitOf : LineNode → Except PyErr (List Char)
  | .branch _ _ s _ _ _ _ => .ok s
  | .leaf _ _ => .error (.keyError ("split"))

/-- Effective position of a numpy index into a vector of the given length:
a negative index wraps once from the end. -/
def npIdx (len : Nat) (i : ℤ) : ℤ := if i < 0 then i + (len : ℤ) else i

/-- `feature_weights[i] += x` on a numpy vector: a negative index wraps
once from the end, anything out of range raises IndexError. -/
def npAddAt (v : List ℚ) (i : ℤ) (x : ℚ) : Except PyErr (List ℚ) :=
  if 0 ≤ npIdx v.length i ∧ npIdx v.length i < (v.length : ℤ) then
    .ok (v.set (npIdx v.length i).toNat (v.getD (npIdx v.length i).toNat 0 + x))
  else .error .indexError

/-- Body of the split loop of `target_feature_weights` for one consecutive
(parent, node) pair of the root-to-leaf path: regex-match the parent's
split token (an AttributeError when the match is None), derive the index
as the matched digits minus one, and add the leaf-value delta there. -/
def stepPair (fw : List ℚ) (pc : ANode × ANode) : Except PyErr (List ℚ) :=
  match splitOf pc.1.data with
  | .error e => .error e
  | .ok s =>
    match fMatch s with
    | none => .error .attributeError
    | some n => npAddAt fw ((n : ℤ) - 1) (pc.2.agg - pc.1.agg)

/-- The split loop of `target_feature_weights`: thread the weight vector
through `stepPair` over the consecutive (parent, node) pairs of the path. -/
def pathLoop (fw : List ℚ) : List (ANode × ANode) → Except PyErr (List ℚ)
  | [] => .ok fw
  | pc :: pcs =>
    match stepPair fw pc with
    | .error e => .error e
    | .ok fw2 => pathLoop fw2 pcs

/-- The part of a tree-loop iteration of `target_feature_weights` that runs
on the parsed tree: index it, look the assigned leaf up, accumulate its
value into the score, walk the parent chain root-first, attribute the
per-split deltas, then add the root value at the bias index. -/
def tfwOnTree (fn : FeatureNames) (acc : ℚ × List ℚ) (t : Tree) (lid : Nat) :
    Except PyErr (ℚ × List ℚ) :=
  match indexed_leafs t with
  | .error e => .error e
  | .ok idx =>
    match dictGet idx lid with
    | none => .error (.keyError (toString lid))
    | some e =>
      match pathLoop acc.2 ((e.1 :: e.2).reverse.zip (e.1 :: e.2).reverse.tail) with
      | .error er => .error er
      | .ok fw =>
        match npAddAt fw fn.bias_idx (e.1 :: e.2).reverse.headI.agg with
        | .error er => .error er
        | .ok fw2 => .ok (acc.1 + e.1.agg, fw2)

/-- One iteration of the tree loop of `target_feature_weights`: parse the
dump (`indexed_leafs(None)` raises a TypeError on the subscript), then
decompose on the parsed tree. -/
def tfwStep (fn : FeatureNames) (acc : ℚ × List ℚ) (dl : List Char × Nat) :
    Except PyErr (ℚ × List ℚ) :=
  match parse_tree_dump dl.1 with
  | .error e => .error e
  | .ok none => .error .typeError
  | .ok (some t) => tfwOnTree fn acc t dl.2

/-- The tree loop of `target_feature_weights` over `zip(tree_dumps, leaf_ids)`. -/
def tfwLoop (fn : FeatureNames) (acc : ℚ × List ℚ) : List (List Char × Nat) →
    Except PyErr (ℚ × List ℚ)
  | [] => .ok acc
  | dl :: dls =>
    match tfwStep fn acc dl with
    | .error e => .error e
    | .ok acc2 => tfwLoop fn acc2 dls

/-- `target_feature_weights`: run the per-tree decomposition over
`zip(tree_dumps, leaf_ids)` starting from score 0 and a zero vector of
`len(feature_names)` entries. -/
def target_feature_weights (leaf_ids : List Nat) (tree_dumps : List (List Char))
    (fn : FeatureNames) : Except PyErr (ℚ × List ℚ) :=
  tfwLoop fn (0, List.replicate fn.len 0) (tree_dumps.zip leaf_ids)

/-- `range(0, stop, step)` for a positive step. -/
def pyRange0 (stop step : Nat) : List Nat :=
  (List.range ((stop + step - 1) / step)).map (fun i => i * step)

/-- The class loop of `prediction_feature_weights`: one
`target_feature_weights` call per chunk start index. -/
def classLoop (leaf_ids : List Nat) (tree_dumps : List (List Char)) (n_estimators : Nat)
    (fn : FeatureNames) : List Nat → Except PyErr (List (ℚ × List ℚ))
  | [] => .ok []
  | start :: starts =>
    match target_feature_weights ((leaf_ids.drop start).take n_estimators)
        ((tree_dumps.drop start).take n_estimators) fn with
    | .error e => .error e
    | .ok sw =>
      match classLoop leaf_ids tree_dumps n_estimators fn starts with
      | .error e => .error e
      | .ok sws => .ok (sw :: sws)

/-- `prediction_feature_weights` (its ensemble-shape core): assert that the
dump and leaf-id sequences have equal length, then decompose contiguous
chunks of `n_estimators` trees per class. -/
def prediction_feature_weights (leaf_ids : List Nat) (tree_dumps : List (List Char))
    (n_estimators : Nat) (fn : FeatureNames) : Except PyErr (List (ℚ × List ℚ)) :=
  if tree_dumps.length ≠ leaf_ids.length then .error .assertionError
  else if n_estimators = 0 then .error (.valueError ("range arg 3 must not be zero"))
  else classLoop leaf_ids tree_dumps n_estimators fn (pyRange0 leaf_ids.length n_estimators)

/-! Specification-side notions, used to state the claims. -/

/-- Drop the value of the `missing` field of a branch dict. -/
def eraseData : LineNode → LineNode
  | .branch dep nid s c y n _ => .branch dep nid s c y n 0
  | .leaf nid v => .leaf nid v

mutual
/-- Two trees are identical except for `missing` values iff their erasures
are equal. -/
def eraseMissing : Tree → Tree
  | .node d cs => .node (eraseData d) (eraseMissingL cs)
def eraseMissingL : List Tree → List Tree
  | [] => []
  | t :: ts => eraseMissing t :: eraseMissingL ts
end

/-- Erasure lifted to parser results. -/
def eraseParse : Except PyErr (Option Tree) → Except PyErr (Option Tree)
  | .ok (some t) => .ok (some (eraseMissing t))
  | r => r

/-- Erasure on an indexed node and on index entries. -/
def eraseAN (a : ANode) : ANode := ⟨eraseData a.data, a.agg⟩

def eraseEntry (e : IndexEntry) : IndexEntry := (e.1, eraseAN e.2.1, e.2.2.map eraseAN)

mutual
def eraseATree : ATree → ATree
  | .node d a cs => .node (eraseData d) a (eraseATreeL cs)
def eraseATreeL : List ATree → List ATree
  | [] => []
  | t :: ts => eraseATree t :: eraseATreeL ts
end

mutual
/-- No leaf dict of the tree carries a `children` key (the shape every dump
emitted by xgboost satisfies). -/
def noLeafChildren : Tree → Bool
  | .node (.leaf _ _) cs => cs.isEmpty
  | .node _ cs => noLeafChildrenL cs
def noLeafChildrenL : List Tree → Bool
  | [] => true
  | t :: ts => noLeafChildren t && noLeafChildrenL ts
end

/-- The root dict is a branch. -/
def rootIsBranch : Tree → Bool
  | .node (.branch _ _ _ _ _ _ _) _ => true
  | .node (.leaf _ _) _ => false

mutual
/-- Specification-side enumeration of the leaves reachable from the root
(strictly below the given ancestor chain), with their stored values and
ancestor chains (nearest ancestor first). -/
def specLeaves (ancs : List LineNode) : Tree → List (Nat × ℚ × List LineNode)
  | .node d cs =>
    (match d with
      | .leaf nid v => [(nid, v, ancs)]
      | _ => []) ++ specLeavesL (d :: ancs) cs
def specLeavesL (ancs : List LineNode) : List Tree → List (Nat × ℚ × List LineNode)
  | [] => []
  | t :: ts => specLeaves ancs t ++ specLeavesL ancs ts
end

/-- The node ids of all leaves reachable from the root. -/
def allLeafIds (t : Tree) : List Nat := (specLeaves [] t).map (fun x => x.1)

/-- The final `leaf` value recorded on an annotated node, when the key
exists. -/
def ATree.aggO : ATree → Option ℚ
  | .node _ a _ => a

/-- The `leaf` values of a list of annotated children, when every child has
the key. -/
def aggsOf : List ATree → Option (List ℚ)
  | [] => some []
  | c :: cs =>
    match c.aggO, aggsOf cs with
    | some v, some vs => some (v :: vs)
    | _, _ => none

mutual
/-- The aggregate invariant of the specification: every branch node's final
`leaf` value is the arithmetic mean of its children's final `leaf` values,
and every leaf node's final `leaf` value is its stored value. -/
def meanOK : ATree → Bool
  | .node (.leaf _ v) a cs => decide (a = some v) && meanOKL cs
  | .node _ a cs =>
    (match aggsOf cs with
      | some vals => decide (a = some (qmean vals))
      | none => false) && meanOKL cs
def meanOKL : List ATree → Bool
  | [] => true
  | t :: ts => meanOK t && meanOKL ts
end

/-- Success condition of `npAddAt` on a vector of the given length. -/
def npOk (len : Nat) (i : ℤ) : Bool :=
  decide (-(len : ℤ) ≤ i) && decide (i < (len : ℤ))

/-- A path parent on which the split loop performs its delta addition
without raising: a branch dict whose split token matches the f-digits
pattern with an in-range derived index. -/
def parentOkB (len : Nat) (p : ANode) : Bool :=
  match p.data with
  | .branch _ _ s _ _ _ _ =>
    (match fMatch s with
      | some n => npOk len ((n : ℤ) - 1)
      | none => false)
  | .leaf _ _ => false

/-- A path parent that does not raise before the f-digits match is tested:
a branch dict whose token, when it matches, has an in-range derived index. -/
def noEarlierFailure (len : Nat) (p : ANode) : Bool :=
  match p.data with
  | .branch _ _ s _ _ _ _ =>
    (match fMatch s with
      | some n => npOk len ((n : ℤ) - 1)
      | none => true)
  | .leaf _ _ => false

/-- A path parent whose split token fails the f-digits match. -/
def fMatchFails (p : ANode) : Bool :=
  match p.data with
  | .branch _ _ s _ _ _ _ => (fMatch s).isNone
  | .leaf _ _ => false

/-- Specification-side chunking into consecutive pieces of `n` elements
(the last piece may be shorter); the first argument is fuel. -/
def chunksGo {α : Type} (n : Nat) : Nat → List α → List (List α)
  | _, [] => []
  | 0, _ => []
  | f + 1, l => l.take n :: chunksGo n f (l.drop n)

/-- Consecutive chunks of `n` elements of a list. -/
def chunks {α : Type} (n : Nat) (l : List α) : List (List α) := chunksGo n l.length l

/-- Decompose per chunk of (dump, assigned leaf) pairs, accumulating one
(score, vector) per chunk — the specification reading of the class loop. -/
def decomposeChunks (fn : FeatureNames) : List (List (List Char × Nat)) →
    Except PyErr (List (ℚ × List ℚ))
  | [] => .ok []
  | ch :: chs =>
    match target_feature_weights (ch.map Prod.snd) (ch.map Prod.fst) fn with
    | .error e => .error e
    | .ok sw =>
      match decomposeChunks fn chs with
      | .error e => .error e
      | .ok sws => .ok (sw :: sws)

/-! Concrete instances used by the claims. -/

/-- The dump of the specification's concrete scenario, exactly as written
there (no indentation on the leaf lines). -/
def dumpSpec : List Char :=
  ("0:[f0<0.5] yes=1,no=2,missing=1\n1:leaf=-0.2\n2:leaf=0.4\n").toList

/-- The same tree serialized with the indentation the dump grammar
prescribes (one tab per level on the leaf lines). -/
def dumpTab : List Char :=
  ("0:[f0<0.5] yes=1,no=2,missing=1\n\t1:leaf=-0.2\n\t2:leaf=0.4\n").toList

/-- As `dumpTab` with a different `missing` child id. -/
def dumpTabM2 : List Char :=
  ("0:[f0<0.5] yes=1,no=2,missing=2\n\t1:leaf=-0.2\n\t2:leaf=0.4\n").toList

/-- As `dumpTab` but splitting on a named feature token. -/
def dumpWidth : List Char :=
  ("0:[width<0.5] yes=1,no=2,missing=1\n\t1:leaf=-0.2\n\t2:leaf=0.4\n").toList

/-- A dump consisting of a single leaf line. -/
def dumpLeafOnly : List Char := ("0:leaf=1").toList

/-- A degenerate dump whose root is a leaf line with an attached child. -/
def dumpLeafRoot : List Char := ("0:leaf=5\n\t1:leaf=2").toList

/-- The feature mapping of the concrete scenario: f0 at index 0, bias at
index 1. -/
def fnSpec : FeatureNames := ⟨[("f0").toList, ("bias").toList], 1⟩

/-- A mapping that contains the token width at index 0. -/
def fnWidth : FeatureNames := ⟨[("width").toList, ("bias").toList], 1⟩

/-- A mapping that does not contain the token f0. -/
def fnUnmapped : FeatureNames := ⟨[("a").toList, ("b").toList, ("c").toList], 2⟩

/-- The value the parser stores for the token -0.2. -/
def vNeg02 : ℚ := decVal (-1) (['0']) (['2']) 0

/-- The value the parser stores for the token 0.4. -/
def vPos04 : ℚ := decVal 1 (['0']) (['4']) 0

/-- The value the parser stores for the token 0.5. -/
def vPos05 : ℚ := decVal 1 (['0']) (['5']) 0

/-- The branch dict of `dumpTab`. -/
def branchF0 : LineNode := .branch 0 0 (['f', '0']) vPos05 1 2 1

/-- The parse of `dumpTab`. -/
def treeTab : Tree :=
  .node branchF0 [.node (.leaf 1 vNeg02) [], .node (.leaf 2 vPos04) []]

/-- The root of `treeTab` after indexing: its `leaf` key holds the mean of
its children's values. -/
def rootATab : ANode := ⟨branchF0, qmean [vNeg02, vPos04]⟩

/-- The leaf index of `treeTab`. -/
def idxTab : List IndexEntry :=
  [(1, ⟨.leaf 1 vNeg02, vNeg02⟩, [rootATab]), (2, ⟨.leaf 2 vPos04, vPos04⟩, [rootATab])]

/-- The annotated `treeTab` after indexing. -/
def annTab : ATree :=
  .node branchF0 (some (qmean [vNeg02, vPos04]))
    [.node (.leaf 1 vNeg02) (some vNeg02) [], .node (.leaf 2 vPos04) (some vPos04) []]

/-! Auxiliary definitions for the verification. -/

mutual
/-- Structural recursion principle for trees and child lists. -/
def treeRec {P : Tree → Prop} {Q : List Tree → Prop}
    (hnode : ∀ d cs, Q cs → P (.node d cs)) (hnil : Q [])
    (hcons : ∀ t ts, P t → Q ts → Q (t :: ts)) : ∀ t : Tree, P t
  | .node d cs => hnode d cs (treeRecL hnode hnil hcons cs)
def treeRecL {P : Tree → Prop} {Q : List Tree → Prop}
    (hnode : ∀ d cs, Q cs → P (.node d cs)) (hnil : Q [])
    (hcons : ∀ t ts, P t → Q ts → Q (t :: ts)) : ∀ ts : List Tree, Q ts
  | [] => hnil
  | t :: ts => hcons t ts (treeRec hnode hnil hcons t) (treeRecL hnode hnil hcons ts)
end

/-- The float value 5 as parsed from the digit 5. -/
def vI5 : ℚ := decVal 1 (['5']) ([]) 0

/-- The float value 2 as parsed from the digit 2. -/
def vI2 : ℚ := decVal 1 (['2']) ([]) 0

/-- The parse of the dump whose root line is a leaf that has a child. -/
def treeLeafRoot : Tree := .node (.leaf 0 vI5) [.node (.leaf 1 vI2) []]

/-- The index produced on that tree. -/
def idxLeafRoot : List IndexEntry :=
  [(1, ⟨.leaf 1 vI2, vI2⟩, [⟨.leaf 0 vI5, qmean [vI2]⟩])]

/-- The mutated tree produced on that tree: the root value 5 is overwritten
by the mean of the children. -/
def annLeafRoot : ATree :=
  .node (.leaf 0 vI5) (some (qmean [vI2])) [.node (.leaf 1 vI2) (some vI2) []]

/-! Theorems. -/

theorem spanP_cons_false (p : Char → Bool) (y : Char) (ys : List Char) (h : p y = false) :
    spanP p (y :: ys) = ([], y :: ys) := by
  simp [spanP, h]

theorem spanP_append_true (p : Char → Bool) (xs rest : List Char) (h : xs.all p = true) :
    spanP p (xs ++ rest) = (xs ++ (spanP p rest).1, (spanP p rest).2) := by
  induction xs with
  | nil => simp
  | cons x xs ih =>
    simp only [List.all_cons, Bool.and_eq_true] at h
    simp [spanP, h.1, ih h.2]

theorem spanP_split (p : Char → Bool) (xs : List Char) (y : Char) (ys : List Char)
    (h : xs.all p = true) (hy : p y = false) :
    spanP p (xs ++ y :: ys) = (xs, y :: ys) := by
  rw [spanP_append_true p xs _ h, spanP_cons_false p y ys hy]
  simp

theorem spanP_all_true (p : Char → Bool) (xs : List Char) (h : xs.all p = true) :
    spanP p xs = (xs, []) := by
  have h2 := spanP_append_true p xs [] h
  simpa [spanP] using h2

theorem spanP_token (p : Char → Bool) (tok rest : List Char)
    (htok : tok.all p = true)
    (hstop : ∀ y, rest.head? = some y → p y = false) :
    spanP p (tok ++ rest) = (tok, rest) := by
  cases rest with
  | nil => simpa using spanP_all_true p tok htok
  | cons y ys => exact spanP_split p tok y ys htok (hstop y rfl)

theorem dropLit_pre (lit r : List Char) : dropLit lit (lit ++ r) = some r := by
  induction lit with
  | nil => rfl
  | cons c cs ih => simp [dropLit, ih]

theorem digit_false_tab {c : Char} (h : c.isDigit = true) : (decide (c = '\t')) = false := by
  apply decide_eq_false
  intro he
  subst he
  exact absurd h (by decide)

theorem replicate_tab_all (k : Nat) :
    (List.replicate k '\t').all (fun c => decide (c = '\t')) = true := by
  simp [List.all_eq_true, List.mem_replicate]

theorem matchBranch_build (k : Nat) (ds ft cd ys ns ms : List Char)
    (hds : ds ≠ []) (hds2 : ds.all Char.isDigit = true)
    (hft : ft ≠ []) (hft2 : ft.all isWordChar = true)
    (hcd : cd ≠ []) (hcd2 : cd.all (fun c => !(decide (c = ']'))) = true)
    (hys : ys ≠ []) (hys2 : ys.all Char.isDigit = true)
    (hns : ns ≠ []) (hns2 : ns.all Char.isDigit = true)
    (hms : ms ≠ []) (hms2 : ms.all Char.isDigit = true) :
    matchBranch (List.replicate k '\t' ++ (ds ++ (':' :: '[' :: (ft ++ ('<' :: (cd ++ (']' :: ' ' :: 'y' :: 'e' :: 's' :: '=' :: (ys ++ (',' :: 'n' :: 'o' :: '=' :: (ns ++ (',' :: 'm' :: 'i' :: 's' :: 's' :: 'i' :: 'n' :: 'g' :: '=' :: ms)))))))))))
      = some (k, natOfDigits ds, ft, cd, natOfDigits ys, natOfDigits ns, natOfDigits ms) := by
  obtain ⟨d0, ds', rfl⟩ := List.exists_cons_of_ne_nil hds
  have hd0 : d0.isDigit = true := by
    simp only [List.all_cons, Bool.and_eq_true] at hds2
    exact hds2.1
  have hA : spanP (fun c => decide (c = '\t')) (List.replicate k '\t' ++ ((d0 :: ds') ++ (':' :: '[' :: (ft ++ ('<' :: (cd ++ (']' :: ' ' :: 'y' :: 'e' :: 's' :: '=' :: (ys ++ (',' :: 'n' :: 'o' :: '=' :: (ns ++ (',' :: 'm' :: 'i' :: 's' :: 's' :: 'i' :: 'n' :: 'g' :: '=' :: ms))))))))))) =
      (List.replicate k '\t', ((d0 :: ds') ++ (':' :: '[' :: (ft ++ ('<' :: (cd ++ (']' :: ' ' :: 'y' :: 'e' :: 's' :: '=' :: (ys ++ (',' :: 'n' :: 'o' :: '=' :: (ns ++ (',' :: 'm' :: 'i' :: 's' :: 's' :: 'i' :: 'n' :: 'g' :: '=' :: ms))))))))))) := by
    apply spanP_token _ _ _ (replicate_tab_all k)
    intro y hy
    simp only [List.cons_append, List.head?_cons, Option.some.injEq] at hy
    subst hy
    exact digit_false_tab hd0
  have hB : spanP Char.isDigit ((d0 :: ds') ++ (':' :: '[' :: (ft ++ ('<' :: (cd ++ (']' :: ' ' :: 'y' :: 'e' :: 's' :: '=' :: (ys ++ (',' :: 'n' :: 'o' :: '=' :: (ns ++ (',' :: 'm' :: 'i' :: 's' :: 's' :: 'i' :: 'n' :: 'g' :: '=' :: ms)))))))))) =
      (d0 :: ds', ':' :: '[' :: (ft ++ ('<' :: (cd ++ (']' :: ' ' :: 'y' :: 'e' :: 's' :: '=' :: (ys ++ (',' :: 'n' :: 'o' :: '=' :: (ns ++ (',' :: 'm' :: 'i' :: 's' :: 's' :: 'i' :: 'n' :: 'g' :: '=' :: ms))))))))) :=
    spanP_token Char.isDigit (d0 :: ds') _ hds2 (by intro y hy; injection hy with hy; subst hy; rfl)
  have hD : spanP isWordChar (ft ++ ('<' :: (cd ++ (']' :: ' ' :: 'y' :: 'e' :: 's' :: '=' :: (ys ++ (',' :: 'n' :: 'o' :: '=' :: (ns ++ (',' :: 'm' :: 'i' :: 's' :: 's' :: 'i' :: 'n' :: 'g' :: '=' :: ms)))))))) =
      (ft, '<' :: (cd ++ (']' :: ' ' :: 'y' :: 'e' :: 's' :: '=' :: (ys ++ (',' :: 'n' :: 'o' :: '=' :: (ns ++ (',' :: 'm' :: 'i' :: 's' :: 's' :: 'i' :: 'n' :: 'g' :: '=' :: ms))))))) :=
    spanP_token isWordChar ft _ hft2 (by intro y hy; injection hy with hy; subst hy; rfl)
  have hF : spanP (fun c => !(decide (c = ']'))) (cd ++ (']' :: ' ' :: 'y' :: 'e' :: 's' :: '=' :: (ys ++ (',' :: 'n' :: 'o' :: '=' :: (ns ++ (',' :: 'm' :: 'i' :: 's' :: 's' :: 'i' :: 'n' :: 'g' :: '=' :: ms)))))) =
      (cd, ']' :: ' ' :: 'y' :: 'e' :: 's' :: '=' :: (ys ++ (',' :: 'n' :: 'o' :: '=' :: (ns ++ (',' :: 'm' :: 'i' :: 's' :: 's' :: 'i' :: 'n' :: 'g' :: '=' :: ms))))) :=
    spanP_token _ cd _ hcd2 (by intro y hy; injection hy with hy; subst hy; rfl)
  have hH : spanP Char.isDigit (ys ++ (',' :: 'n' :: 'o' :: '=' :: (ns ++ (',' :: 'm' :: 'i' :: 's' :: 's' :: 'i' :: 'n' :: 'g' :: '=' :: ms)))) =
      (ys, ',' :: 'n' :: 'o' :: '=' :: (ns ++ (',' :: 'm' :: 'i' :: 's' :: 's' :: 'i' :: 'n' :: 'g' :: '=' :: ms))) :=
    spanP_token Char.isDigit ys _ hys2 (by intro y hy; injection hy with hy; subst hy; rfl)
  have hJ : spanP Char.isDigit (ns ++ (',' :: 'm' :: 'i' :: 's' :: 's' :: 'i' :: 'n' :: 'g' :: '=' :: ms)) =
      (ns, ',' :: 'm' :: 'i' :: 's' :: 's' :: 'i' :: 'n' :: 'g' :: '=' :: ms) :=
    spanP_token Char.isDigit ns _ hns2 (by intro y hy; injection hy with hy; subst hy; rfl)
  have hL : spanP Char.isDigit ms = (ms, []) := spanP_all_true Char.isDigit ms hms2
  have hC : ∀ r : List Char, dropLit [':', '['] (':' :: '[' :: r) = some r :=
    fun r => dropLit_pre [':', '['] r
  have hE : ∀ r : List Char, dropLit ['<'] ('<' :: r) = some r :=
    fun r => dropLit_pre ['<'] r
  have hG : ∀ r : List Char,
      dropLit [']', ' ', 'y', 'e', 's', '='] (']' :: ' ' :: 'y' :: 'e' :: 's' :: '=' :: r) = some r :=
    fun r => dropLit_pre [']', ' ', 'y', 'e', 's', '='] r
  have hI : ∀ r : List Char, dropLit [',', 'n', 'o', '='] (',' :: 'n' :: 'o' :: '=' :: r) = some r :=
    fun r => dropLit_pre [',', 'n', 'o', '='] r
  have hK : ∀ r : List Char,
      dropLit [',', 'm', 'i', 's', 's', 'i', 'n', 'g', '=']
        (',' :: 'm' :: 'i' :: 's' :: 's' :: 'i' :: 'n' :: 'g' :: '=' :: r) = some r :=
    fun r => dropLit_pre [',', 'm', 'i', 's', 's', 'i', 'n', 'g', '='] r
  unfold matchBranch
  simp only [hA, hB, hC, hD, hE, hF, hG, hH, hI, hJ, hK, hL]
  simp [hft, hcd, hys, hns, hms]

/-- C7 (amended): with the operator fixed to the less-than sign (not any
non-alphanumeric character), the feature a nonempty word-character token,
the ids nonempty digit strings and a threshold accepted by float(), the
branch line parses into the branch node carrying the depth, id, split
feature, condition and child ids. -/
theorem c7_branch_line_grammar_amended (k : Nat) (ds ft cd ys ns ms : List Char) (q : ℚ)
    (hds : ds ≠ []) (hds2 : ds.all Char.isDigit = true)
    (hft : ft ≠ []) (hft2 : ft.all isWordChar = true)
    (hcd : cd ≠ []) (hcd2 : cd.all (fun c => !(decide (c = ']'))) = true)
    (hys : ys ≠ []) (hys2 : ys.all Char.isDigit = true)
    (hns : ns ≠ []) (hns2 : ns.all Char.isDigit = true)
    (hms : ms ≠ []) (hms2 : ms.all Char.isDigit = true)
    (hq : pyFloat cd = some q) :
    _parse_dump_line (List.replicate k '\t' ++ (ds ++ (':' :: '[' :: (ft ++ ('<' :: (cd ++ (']' :: ' ' :: 'y' :: 'e' :: 's' :: '=' :: (ys ++ (',' :: 'n' :: 'o' :: '=' :: (ns ++ (',' :: 'm' :: 'i' :: 's' :: 's' :: 'i' :: 'n' :: 'g' :: '=' :: ms))))))))))) =
      .ok (k, .branch k (natOfDigits ds) ft q (natOfDigits ys) (natOfDigits ns)
        (natOfDigits ms)) := by
  unfold _parse_dump_line
  simp only [matchBranch_build k ds ft cd ys ns ms hds hds2 hft hft2 hcd hcd2 hys hys2
    hns hns2 hms hms2, hq]

theorem c7_counterexample_op_gt :
    _parse_dump_line (("0:[f0>0.5] yes=1,no=2,missing=1").toList) =
      .error (.valueError (("Line in unexpected format: ") ++ ("0:[f0>0.5] yes=1,no=2,missing=1")))
  ∧ ('>').isAlphanum = false := ⟨rfl, rfl⟩

theorem c7_branch_line_grammar_amended_witness :
    _parse_dump_line (("\t10:[f2_x<3.5] yes=3,no=4,missing=3").toList) =
      .ok (1, .branch 1 10 (("f2_x").toList) (decVal 1 (['3']) (['5']) 0) 3 4 3) :=
  c7_branch_line_grammar_amended 1 (("10").toList) (("f2_x").toList) (("3.5").toList)
    (("3").toList) (("4").toList) (("3").toList) (decVal 1 (['3']) (['5']) 0)
    (by decide) (by decide) (by decide) (by decide) (by decide) (by decide)
    (by decide) (by decide) (by decide) (by decide) (by decide) (by decide) rfl

theorem parseLines_all_empty (ls : List (List Char)) (h : ls.all List.isEmpty = true) :
    parseLines [] ls = .ok [] := by
  induction ls with
  | nil => rfl
  | cons l ls ih =>
    simp only [List.all_cons, Bool.and_eq_true] at h
    have hl : l = [] := by
      cases l with
      | nil => rfl
      | cons c cs => simp [List.isEmpty] at h
    subst hl
    simpa [parseLines, parseStep] using ih h.2

/-- C10: on the empty string or an input of only empty lines,
parse_tree_dump returns success with no tree and no error. -/
theorem c10_empty_dump_none (s : List Char) (h : (splitLines s).all List.isEmpty = true) :
    parse_tree_dump s = .ok none := by
  unfold parse_tree_dump
  rw [parseLines_all_empty _ h]
  rfl

theorem c10_empty_dump_none_witness :
    ((splitLines (("\n\n").toList)).all List.isEmpty = true
      ∧ parse_tree_dump (("\n\n").toList) = .ok none)
  ∧ ((splitLines ([] : List Char)).all List.isEmpty = true
      ∧ parse_tree_dump ([] : List Char) = .ok none) :=
  ⟨⟨rfl, c10_empty_dump_none _ rfl⟩, ⟨rfl, c10_empty_dump_none _ rfl⟩⟩

/-- C4 (amended): a line matching neither shape raises a ValueError naming
the line, and a positive depth exceeding the stack length raises a
ValueError; but a depth-0 line on a non-empty stack raises an
AssertionError, not a ValueError-class error. -/
theorem c4_error_kinds_amended :
    (∀ st line, line.isEmpty = false → matchBranch line = none → matchLeaf line = none →
      parseStep st line = .error (.valueError (("Line in unexpected format: ") ++ line.asString)))
  ∧ (∀ st line d nd, line.isEmpty = false → _parse_dump_line line = .ok (d, nd) → d ≠ 0 →
      st.length < d → parseStep st line = .error (.valueError ("Unexpected dump structure")))
  ∧ (∀ st line nd, line.isEmpty = false → _parse_dump_line line = .ok (0, nd) →
      st.isEmpty = false → parseStep st line = .error .assertionError) := by
  refine ⟨?_, ?_, ?_⟩
  · intro st line hne hb hl
    cases line with
    | nil => simp at hne
    | cons c cs => simp [parseStep, _parse_dump_line, hb, hl]
  · intro st line d nd hne hp hd hlen
    cases line with
    | nil => simp at hne
    | cons c cs => simp [parseStep, hp, hd, hlen]
  · intro st line nd hne hp hst
    cases line with
    | nil => simp at hne
    | cons c cs =>
      cases st with
      | nil => simp [List.isEmpty] at hst
      | cons e st => simp [parseStep, hp]

theorem c4_counterexample_depth0_assertion :
    parse_tree_dump (("0:leaf=1\n0:leaf=2").toList) = .error .assertionError := rfl

theorem c4_error_kinds_amended_witness :
    parseStep [] (("oops").toList) =
      .error (.valueError (("Line in unexpected format: ") ++ ("oops").toList.asString))
  ∧ parseStep [] (("\t1:leaf=5").toList) = .error (.valueError ("Unexpected dump structure"))
  ∧ parseStep [(LineNode.leaf 0 vNeg02, [])] (("0:leaf=5").toList) = .error .assertionError :=
  ⟨c4_error_kinds_amended.1 [] _ rfl rfl rfl,
   c4_error_kinds_amended.2.1 [] _ 1 (.leaf 1 (decVal 1 (['5']) ([]) 0)) rfl rfl
     (by decide) (by decide),
   c4_error_kinds_amended.2.2 [(LineNode.leaf 0 vNeg02, [])] _
     (.leaf 0 (decVal 1 (['5']) ([]) 0)) rfl rfl rfl⟩

/-- Shape of every index entry: the indexed node is a leaf dict and its
final `leaf` value is its stored value. -/
theorem idx_entry_shape :
    ∀ t : Tree, ∀ out, idxTree t = .ok out →
      ∀ e ∈ out.1, ∃ nid v, e.2.1 = ANode.mk (LineNode.leaf nid v) v := by
  apply treeRec (P := fun t => ∀ out, idxTree t = .ok out →
      ∀ e ∈ out.1, ∃ nid v, e.2.1 = ANode.mk (LineNode.leaf nid v) v)
    (Q := fun cs => ∀ r, idxKids cs = .ok r →
      ∀ x ∈ r, ∀ e ∈ x.1, ∃ nid v, e.2.1 = ANode.mk (LineNode.leaf nid v) v)
  · intro d cs hQ out h
    cases cs with
    | nil => exact absurd h (by simp [idxTree])
    | cons c cs' =>
      rw [idxTree] at h
      split at h
      · exact absurd h (by simp)
      · rename_i r hr
        injection h with h
        subst h
        intro e he
        simp only [List.mem_map, List.mem_flatten] at he
        obtain ⟨e0, ⟨es, hes, he0⟩, rfl⟩ := he
        obtain ⟨x, hx, rfl⟩ := hes
        exact hQ r hr x hx e0 he0
  · intro r h
    cases h
    simp
  · intro t ts hP hQ r h
    rcases t with ⟨cd, ccs⟩
    cases cd with
    | leaf nid v =>
      rw [idxKids] at h
      split at h
      · exact absurd h (by simp)
      · rename_i t2 ht2
        injection h with h
        subst h
        intro x hx
        rcases List.mem_cons.mp hx with rfl | hmem
        · intro e he
          rcases List.mem_singleton.mp he with rfl
          exact ⟨_, _, rfl⟩
        · exact hQ t2 ht2 x hmem
    | branch dep nid s c y n m =>
      rw [idxKids] at h
      split at h
      · exact absurd h (by simp)
      · rename_i x2 hx2
        split at h
        · exact absurd h (by simp)
        · rename_i t2 ht2
          injection h with h
          subst h
          intro x hx
          rcases List.mem_cons.mp hx with rfl | hmem
          · intro e he
            exact hP (x2.1, x2.2.1, x2.2.2) hx2 e he
          · exact hQ t2 ht2 x hmem
      · simp

theorem sum_set_getD (v : List ℚ) (n : Nat) (x : ℚ) (h : n < v.length) :
    (v.set n (v.getD n 0 + x)).sum = v.sum + x := by
  induction v generalizing n with
  | nil => simp at h
  | cons a v ih =>
    cases n with
    | zero => simp [List.getD]; ring
    | succ n =>
      simp only [List.length_cons, Nat.succ_lt_succ_iff] at h
      simp only [List.set, List.getD_cons_succ, List.sum_cons]
      rw [ih n h]
      ring

theorem npAddAt_ok {v : List ℚ} {i : ℤ} {x : ℚ} {out : List ℚ}
    (h : npAddAt v i x = .ok out) :
    out.sum = v.sum + x ∧ out.length = v.length := by
  unfold npAddAt at h
  split at h
  · rename_i hc
    injection h with h
    subst h
    have hlt : (npIdx v.length i).toNat < v.length := by
      unfold npIdx at hc ⊢
      omega
    exact ⟨sum_set_getD v _ x hlt, by simp⟩
  · exact absurd h (by simp)

theorem stepPair_ok {fw : List ℚ} {pc : ANode × ANode} {out : List ℚ}
    (h : stepPair fw pc = .ok out) :
    out.sum = fw.sum + (pc.2.agg - pc.1.agg) ∧ out.length = fw.length := by
  unfold stepPair at h
  split at h
  · exact absurd h (by simp)
  · split at h
    · exact absurd h (by simp)
    · exact npAddAt_ok h

theorem pathLoop_ok {pcs : List (ANode × ANode)} : ∀ {fw out : List ℚ},
    pathLoop fw pcs = .ok out →
    out.sum = fw.sum + ((pcs.map (fun pc => pc.2.agg - pc.1.agg)).sum) ∧
      out.length = fw.length := by
  induction pcs with
  | nil => intro fw out h; cases h; simp
  | cons pc pcs ih =>
    intro fw out h
    rw [pathLoop] at h
    split at h
    · exact absurd h (by simp)
    · rename_i fw2 h2
      obtain ⟨hs, hl⟩ := ih h
      obtain ⟨hs2, hl2⟩ := stepPair_ok h2
      constructor
      · rw [hs, hs2]; simp; ring
      · rw [hl, hl2]

theorem teleSum (x : ANode) (xs : List ANode) :
    (((x :: xs).zip xs).map (fun pc => pc.2.agg - pc.1.agg)).sum =
      (xs.getLastD x).agg - x.agg := by
  induction xs generalizing x with
  | nil => simp
  | cons y ys ih =>
    simp only [List.zip_cons_cons, List.map_cons, List.sum_cons, List.getLastD_cons]
    rw [ih y]
    ring

theorem path_delta_sum (a : ANode) (anc : List ANode) :
    (((a :: anc).reverse.zip (a :: anc).reverse.tail).map
        (fun pc => pc.2.agg - pc.1.agg)).sum =
      a.agg - (a :: anc).reverse.headI.agg := by
  rcases hrev : (a :: anc).reverse with _ | ⟨v, vs⟩
  · exact absurd hrev (by simp)
  · have hlast : (v :: vs).getLast? = some a := by
      rw [← hrev, List.getLast?_reverse]
      rfl
    have hga : vs.getLastD v = a := by
      have h2 := List.getLast?_cons (a := v) (l := vs)
      rw [h2] at hlast
      injection hlast with hv
      rw [List.getLastD_eq_getLast?]
      exact hv
    simp only [List.tail_cons, teleSum, hga, List.headI]

theorem tfwOnTree_ok {fn : FeatureNames} {acc : ℚ × List ℚ} {t : Tree} {lid : Nat}
    {s : ℚ} {w : List ℚ} (h : tfwOnTree fn acc t lid = .ok (s, w)) :
    ∃ idx e, indexed_leafs t = .ok idx ∧ dictGet idx lid = some e ∧
      s = acc.1 + e.1.agg ∧ w.sum = acc.2.sum + e.1.agg ∧ w.length = acc.2.length := by
  unfold tfwOnTree at h
  split at h
  · exact absurd h (by simp)
  · rename_i idx hidx
    split at h
    · exact absurd h (by simp)
    · rename_i e he
      split at h
      · exact absurd h (by simp)
      · rename_i fw hfw
        split at h
        · exact absurd h (by simp)
        · rename_i fw2 hfw2
          injection h with h
          cases h
          refine ⟨idx, e, hidx, he, rfl, ?_, ?_⟩
          · obtain ⟨hsum1, hlen1⟩ := pathLoop_ok hfw
            obtain ⟨hsum2, hlen2⟩ := npAddAt_ok hfw2
            rw [hsum2, hsum1, path_delta_sum]
            ring
          · obtain ⟨hsum1, hlen1⟩ := pathLoop_ok hfw
            obtain ⟨hsum2, hlen2⟩ := npAddAt_ok hfw2
            rw [hlen2, hlen1]

theorem dictGet_mem {idx : List IndexEntry} {k : Nat} {x : ANode × List ANode}
    (h : dictGet idx k = some x) : (k, x.1, x.2) ∈ idx := by
  unfold dictGet at h
  rcases hf : idx.reverse.find? (fun e => e.1 = k) with _ | y
  · rw [hf] at h; cases h
  · rw [hf] at h
    injection h with h
    have hy := List.find?_some hf
    have hmem := List.mem_of_find?_eq_some hf
    simp only [decide_eq_true_eq] at hy
    rw [List.mem_reverse] at hmem
    have : y = (k, x.1, x.2) := by
      rcases y with ⟨y1, y2⟩
      simp only at hy
      subst hy
      subst h
      rfl
    rw [← this]
    exact hmem

theorem indexed_leafs_shape {t : Tree} {idx : List IndexEntry} (h : indexed_leafs t = .ok idx) :
    ∀ e ∈ idx, ∃ nid v, e.2.1 = ANode.mk (LineNode.leaf nid v) v := by
  unfold indexed_leafs at h
  rcases ht : idxTree t with e | out
  · rw [ht] at h; cases h
  · rw [ht] at h
    injection h with h
    subst h
    exact idx_entry_shape t out ht

theorem tfw_single (d : List Char) (l : Nat) (fn : FeatureNames) :
    target_feature_weights [l] [d] fn =
      match tfwStep fn (0, List.replicate fn.len 0) (d, l) with
      | .error e => .error e
      | .ok acc2 => .ok acc2 := by
  unfold target_feature_weights
  rw [show ([d].zip [l]) = [(d, l)] from rfl, tfwLoop]
  rcases hstep : tfwStep fn (0, List.replicate fn.len 0) (d, l) with e | acc2 <;>
    simp only [hstep]
  rw [tfwLoop]

/-- C2: the contribution vector of a one-tree decomposition (bias slot
included) sums exactly to the score, and the score is exactly the stored
value of the assigned leaf — so the sum matches the leaf value within any
tolerance, in particular 1e-9. -/
theorem c2_sum_invariant (d : List Char) (l : Nat) (fn : FeatureNames)
    (h : (target_feature_weights [l] [d] fn).isOk = true) :
    ∃ s w, target_feature_weights [l] [d] fn = .ok (s, w) ∧ w.sum = s ∧
      (∀ t idx e, parse_tree_dump d = .ok (some t) → indexed_leafs t = .ok idx →
        dictGet idx l = some e → ∃ nid v, e.1.data = LineNode.leaf nid v ∧ s = v) := by
  simp only [tfw_single] at h ⊢
  rcases hstep : tfwStep fn (0, List.replicate fn.len 0) (d, l) with e | ⟨s, w⟩ <;>
    simp only [hstep] at h ⊢
  · simp [Except.isOk, Except.toBool] at h
  · unfold tfwStep at hstep
    rcases hp : parse_tree_dump d with e' | t?
    · rw [hp] at hstep; cases hstep
    rw [hp] at hstep
    rcases t? with _ | t
    · cases hstep
    obtain ⟨idx, en, hidx, hen, hsv, hsum, hlen⟩ := tfwOnTree_ok hstep
    have hv := indexed_leafs_shape hidx _ (dictGet_mem hen)
    obtain ⟨nid, v, hv⟩ := hv
    refine ⟨s, w, rfl, ?_, ?_⟩
    · rw [hsum, hsv, hv]
      simp [List.sum_replicate]
    · intro t2 idx2 e2 hp2 hidx2 he2
      injection hp2 with hp2
      injection hp2 with hp2
      subst hp2
      rw [hidx] at hidx2
      injection hidx2 with hidx2
      subst hidx2
      have hen2 : dictGet idx l = some en := hen
      rw [hen2] at he2
      injection he2 with he2
      subst he2
      refine ⟨nid, v, ?_, ?_⟩
      · rw [show en.1 = ANode.mk (LineNode.leaf nid v) v from hv]
      · rw [hsv, hv]
        simp

theorem c2_sum_invariant_witness :
    (target_feature_weights [2] [dumpTab] fnSpec).isOk = true
  ∧ (∃ s w, target_feature_weights [2] [dumpTab] fnSpec = .ok (s, w) ∧ w.sum = s ∧
      (∀ t idx e, parse_tree_dump dumpTab = .ok (some t) → indexed_leafs t = .ok idx →
        dictGet idx 2 = some e → ∃ nid v, e.1.data = LineNode.leaf nid v ∧ s = v)) :=
  ⟨rfl, c2_sum_invariant dumpTab 2 fnSpec rfl⟩

/-- C1: the specification's concrete scenario, evaluated against the code.
The dump exactly as the spec writes it (without tab indentation) raises an
assertion failure; the tab-indented dump yields score 2/5 = 0.4 as claimed
but the contribution vector [0, 2/5], not [3/10, 1/10]: the f0 delta lands
on the bias slot (index computed as 0 - 1 = -1). -/
theorem c1_concrete_scenario_code_eval :
    parse_tree_dump dumpSpec = .error .assertionError
  ∧ target_feature_weights [2] [dumpTab] fnSpec = .ok (2/5, [0, 2/5])
  ∧ target_feature_weights [2] [dumpTab] fnSpec ≠ .ok (2/5, [3/10, 1/10]) := by
  have h2 : target_feature_weights [2] [dumpTab] fnSpec = .ok (2/5, [0, 2/5]) := by
    simp +decide [target_feature_weights, tfwStep, tfwOnTree, FeatureNames.len, fnSpec,
      dumpTab, parse_tree_dump, splitLines, parseStep, _parse_dump_line, matchBranch,
      matchLeaf, spanP, dropLit, pyFloat, pyExp, decVal, natOfDigits, isWordChar,
      collapseTo, popN, finalize, indexed_leafs, idxTree, idxKids, castA, castAL, qmean,
      dictGet, tfwLoop, pathLoop, parseLines, stepPair, splitOf, fMatch, npAddAt, npIdx,
      Except.map, Option.map, List.find?]
    norm_num
  refine ⟨rfl, h2, ?_⟩
  rw [h2]
  intro hcontra
  injection hcontra with hcontra
  rw [Prod.mk.injEq] at hcontra
  have hlist := hcontra.2
  rw [List.cons.injEq] at hlist
  have h0 := hlist.1
  norm_num at h0

theorem npAddAt_succeeds (v : List ℚ) (i : ℤ) (x : ℚ) (h : npOk v.length i = true) :
    ∃ out, npAddAt v i x = .ok out ∧ out.length = v.length := by
  unfold npOk at h
  simp only [Bool.and_eq_true, decide_eq_true_eq] at h
  have hc : 0 ≤ npIdx v.length i ∧ npIdx v.length i < (v.length : ℤ) := by
    unfold npIdx
    split <;> omega
  refine ⟨v.set (npIdx v.length i).toNat (v.getD (npIdx v.length i).toNat 0 + x), ?_, by simp⟩
  unfold npAddAt
  rw [if_pos hc]

theorem stepPair_succeeds (fw : List ℚ) (pc : ANode × ANode) (len : Nat)
    (hlen : fw.length = len) (h : parentOkB len pc.1 = true) :
    ∃ out, stepPair fw pc = .ok out ∧ out.length = len := by
  unfold parentOkB at h
  split at h
  · rename_i dep nid sx c y n2 m hd
    split at h
    · rename_i n hm
      unfold stepPair
      rw [hd]
      simp only [splitOf]
      rw [hm]
      subst hlen
      exact npAddAt_succeeds fw _ _ h
    · cases h
  · cases h

theorem pathLoop_all_ok (len : Nat) : ∀ (pcs : List (ANode × ANode)) (fw : List ℚ),
    fw.length = len → (pcs.all (fun pc => parentOkB len pc.1) = true) →
    ∃ out, pathLoop fw pcs = .ok out ∧ out.length = len := by
  intro pcs
  induction pcs with
  | nil => intro fw hlen _; exact ⟨fw, rfl, hlen⟩
  | cons pc pcs ih =>
    intro fw hlen hall
    simp only [List.all_cons, Bool.and_eq_true] at hall
    obtain ⟨out, hout, hlen2⟩ := stepPair_succeeds fw pc len hlen hall.1
    obtain ⟨out2, hout2, hlen3⟩ := ih out hlen2 hall.2
    refine ⟨out2, ?_, hlen3⟩
    simp only [pathLoop, hout, hout2]

theorem pathLoop_first_fail (len : Nat) : ∀ (pcs : List (ANode × ANode)) (fw : List ℚ),
    fw.length = len → (pcs.all (fun pc => noEarlierFailure len pc.1) = true) →
    (pcs.any (fun pc => fMatchFails pc.1) = true) →
    pathLoop fw pcs = .error .attributeError := by
  intro pcs
  induction pcs with
  | nil => intro fw _ _ hany; cases hany
  | cons pc pcs ih =>
    intro fw hlen hall hany
    simp only [List.all_cons, Bool.and_eq_true] at hall
    simp only [List.any_cons, Bool.or_eq_true] at hany
    have hne := hall.1
    unfold noEarlierFailure at hne
    split at hne
    · rename_i dep nid sx c y n2 m hd
      split at hne
      · rename_i n hm
        have hfails : fMatchFails pc.1 = false := by
          unfold fMatchFails
          simp only [hd, hm]
          rfl
        rcases hany with h1 | h1
        · rw [hfails] at h1; cases h1
        · obtain ⟨out, hout, hlen2⟩ := stepPair_succeeds fw pc len hlen (by
            unfold parentOkB
            simp only [hd, hm]
            exact hne)
          simp only [pathLoop, hout]
          exact ih out hlen2 hall.2 h1
      · rename_i hm
        have hsp : stepPair fw pc = .error .attributeError := by
          unfold stepPair
          simp only [hd, splitOf, hm]
        simp only [pathLoop, hsp]
    · cases hne

theorem zip_tail_fst : ∀ xs : List ANode, (xs.zip xs.tail).map Prod.fst = xs.dropLast := by
  intro xs
  induction xs with
  | nil => rfl
  | cons x xs ih =>
    cases xs with
    | nil => rfl
    | cons y ys =>
      simp only [List.tail_cons, List.zip_cons_cons, List.map_cons, List.dropLast_cons₂]
      rw [show (y :: ys).tail = ys from rfl] at ih
      rw [ih]

theorem all_map_fst {α : Type} (p : α → Bool) (l : List (α × α)) :
    l.all (fun pc => p pc.1) = (l.map Prod.fst).all p := by
  induction l with
  | nil => rfl
  | cons x xs ih => simp [List.all_cons, ih]

theorem any_map_fst {α : Type} (p : α → Bool) (l : List (α × α)) :
    l.any (fun pc => p pc.1) = (l.map Prod.fst).any p := by
  induction l with
  | nil => rfl
  | cons x xs ih => simp [List.any_cons, ih]

theorem all_fst_of_dropLast (p : ANode → Bool) (xs : List ANode)
    (h : xs.dropLast.all p = true) :
    (xs.zip xs.tail).all (fun pc => p pc.1) = true := by
  rw [all_map_fst, zip_tail_fst]
  exact h

theorem any_fst_of_dropLast (p : ANode → Bool) (xs : List ANode)
    (h : xs.dropLast.any p = true) :
    (xs.zip xs.tail).any (fun pc => p pc.1) = true := by
  rw [any_map_fst, zip_tail_fst]
  exact h

/-- C5 (amended): the feature-name mapping is never consulted; the
decomposition succeeds when every path parent's split token matches the
f-digits pattern with an in-range derived index (and the bias index is in
range), and raises an attribute failure when some path parent's token does
not match the pattern, mapped or not. -/
theorem c5_failure_characterization_amended (d : List Char) (l : Nat) (fn : FeatureNames)
    (t : Tree) (idx : List IndexEntry) (e : ANode × List ANode)
    (hp : parse_tree_dump d = .ok (some t))
    (hidx : indexed_leafs t = .ok idx)
    (he : dictGet idx l = some e) :
    (((e.1 :: e.2).reverse.dropLast.all (parentOkB fn.len) = true) →
      npOk fn.len fn.bias_idx = true →
      (target_feature_weights [l] [d] fn).isOk = true)
  ∧ (((e.1 :: e.2).reverse.dropLast.all (noEarlierFailure fn.len) = true) →
      ((e.1 :: e.2).reverse.dropLast.any fMatchFails = true) →
      target_feature_weights [l] [d] fn = .error .attributeError) := by
  have hT := tfw_single d l fn
  have hstep : tfwStep fn (0, List.replicate fn.len 0) (d, l) =
      tfwOnTree fn (0, List.replicate fn.len 0) t l := by
    unfold tfwStep
    rw [hp]
  constructor
  · intro hall hbias
    obtain ⟨out, hout, hlen⟩ := pathLoop_all_ok fn.len
      ((e.1 :: e.2).reverse.zip (e.1 :: e.2).reverse.tail) (List.replicate fn.len 0)
      (by simp) (all_fst_of_dropLast _ _ hall)
    obtain ⟨out2, hout2, hlen2⟩ := npAddAt_succeeds out fn.bias_idx
      ((e.1 :: e.2).reverse.headI.agg) (by rw [hlen]; exact hbias)
    have hOn : tfwOnTree fn (0, List.replicate fn.len 0) t l =
        .ok (0 + e.1.agg, out2) := by
      unfold tfwOnTree
      rw [hidx]
      simp only [he, hout, hout2]
    rw [hT, hstep, hOn]
    rfl
  · intro hall hany
    have hloop := pathLoop_first_fail fn.len
      ((e.1 :: e.2).reverse.zip (e.1 :: e.2).reverse.tail) (List.replicate fn.len 0)
      (by simp) (all_fst_of_dropLast _ _ hall) (any_fst_of_dropLast _ _ hany)
    have hOn : tfwOnTree fn (0, List.replicate fn.len 0) t l = .error .attributeError := by
      unfold tfwOnTree
      rw [hidx]
      simp only [he, hloop]
    rw [hT, hstep, hOn]

theorem c5_counterexample_mapping_ignored :
    (FeatureNames.lookup fnWidth (("width").toList) = some 0
      ∧ target_feature_weights [2] [dumpWidth] fnWidth = .error .attributeError)
  ∧ (FeatureNames.lookup fnUnmapped (("f0").toList) = none
      ∧ (target_feature_weights [2] [dumpTab] fnUnmapped).isOk = true) :=
  ⟨⟨rfl, rfl⟩, ⟨rfl, rfl⟩⟩

theorem c5_failure_characterization_amended_witness :
    (target_feature_weights [2] [dumpTab] fnSpec).isOk = true :=
  (c5_failure_characterization_amended dumpTab 2 fnSpec treeTab idxTab
    ((⟨LineNode.leaf 2 vPos04, vPos04⟩ : ANode), [rootATab]) rfl rfl rfl).1 rfl rfl

theorem eraseMissingL_eq_map (ts : List Tree) : eraseMissingL ts = ts.map eraseMissing := by
  induction ts with
  | nil => rfl
  | cons t ts ih => rw [eraseMissingL, ih, List.map_cons]

theorem eraseATreeL_eq_map (ts : List ATree) : eraseATreeL ts = ts.map eraseATree := by
  induction ts with
  | nil => rfl
  | cons t ts ih => rw [eraseATreeL, ih, List.map_cons]

theorem castAL_eq_map (ts : List Tree) : castAL ts = ts.map castA := by
  induction ts with
  | nil => rfl
  | cons t ts ih => rw [castAL, ih, List.map_cons]

theorem castA_erase :
    ∀ t : Tree, castA (eraseMissing t) = eraseATree (castA t) := by
  apply treeRec (P := fun t => castA (eraseMissing t) = eraseATree (castA t))
    (Q := fun ts => castAL (eraseMissingL ts) = eraseATreeL (castAL ts))
  · intro d cs hQ
    cases d <;> simp [eraseMissing, eraseData, castA, eraseATree, hQ]
  · rfl
  · intro t ts hP hQ
    rw [eraseMissingL, castAL, castAL, eraseATreeL, hP, hQ]

theorem idxTree_erase :
    ∀ t : Tree, idxTree (eraseMissing t) =
      (idxTree t).map (fun x => (x.1.map eraseEntry, eraseATreeL x.2.1, x.2.2)) := by
  apply treeRec (P := fun t => idxTree (eraseMissing t) =
      (idxTree t).map (fun x => (x.1.map eraseEntry, eraseATreeL x.2.1, x.2.2)))
    (Q := fun cs => idxKids (eraseMissingL cs) =
      (idxKids cs).map (List.map (fun x => (x.1.map eraseEntry, eraseATree x.2.1, x.2.2))))
  · intro d cs hQ
    rw [eraseMissing]
    cases cs with
    | nil =>
      rw [show eraseMissingL [] = [] from rfl]
      rfl
    | cons c cs' =>
      rw [show eraseMissingL (c :: cs') = eraseMissing c :: eraseMissingL cs' from rfl]
      rw [idxTree]
      rw [show eraseMissing c :: eraseMissingL cs' = eraseMissingL (c :: cs') from rfl]
      rw [hQ]
      rw [idxTree]
      rcases hk : idxKids (c :: cs') with e | r
      · rfl
      · simp [Except.map, List.map_map, Function.comp_def, eraseATreeL_eq_map,
          List.map_flatten, eraseEntry, eraseAN, List.map_append]
  · rfl
  · intro t ts hP hQ
    rcases t with ⟨cd, ccs⟩
    rw [show eraseMissingL (Tree.node cd ccs :: ts) =
      eraseMissing (Tree.node cd ccs) :: eraseMissingL ts from rfl]
    rw [eraseMissing]
    cases cd with
    | leaf nid v =>
      rw [show eraseData (LineNode.leaf nid v) = LineNode.leaf nid v from rfl]
      rw [idxKids, idxKids, hQ]
      rcases hk : idxKids ts with e | r
      · rfl
      · simp only [Except.map]
        rw [show castA (Tree.node (LineNode.leaf nid v) (eraseMissingL ccs)) =
          castA (eraseMissing (Tree.node (LineNode.leaf nid v) ccs)) from by
            rw [eraseMissing]; rfl]
        rw [castA_erase]
        simp [eraseEntry, eraseAN, eraseData]
    | branch dep nid s c y n m =>
      rw [show eraseData (LineNode.branch dep nid s c y n m) =
        LineNode.branch dep nid s c y n 0 from rfl]
      rw [idxKids, idxKids]
      rw [show Tree.node (LineNode.branch dep nid s c y n 0) (eraseMissingL ccs) =
        eraseMissing (Tree.node (LineNode.branch dep nid s c y n m) ccs) from by
          rw [eraseMissing]; rfl]
      rw [hP, hQ]
      rcases hx : idxTree (Tree.node (LineNode.branch dep nid s c y n m) ccs) with e | x
      · rfl
      · rcases hk : idxKids ts with e | r
        · rfl
        · simp [Except.map, eraseATreeL_eq_map, eraseATree, eraseData, eraseEntry, eraseAN]
      · simp
      · simp

theorem indexed_leafs_erase (t : Tree) :
    indexed_leafs (eraseMissing t) = (indexed_leafs t).map (List.map eraseEntry) := by
  unfold indexed_leafs
  rw [idxTree_erase]
  rcases idxTree t with e | x <;> rfl

theorem dictGet_erase (idx : List IndexEntry) (k : Nat) :
    dictGet (idx.map eraseEntry) k =
      (dictGet idx k).map (fun x => (eraseAN x.1, x.2.map eraseAN)) := by
  unfold dictGet
  rw [← List.map_reverse]
  induction idx.reverse with
  | nil => rfl
  | cons y ys ih =>
    rcases y with ⟨k2, a, ancs⟩
    by_cases hk : k2 = k
    · subst hk
      simp [List.find?, eraseEntry]
    · simp only [List.map_cons, List.find?, eraseEntry]
      have hd : decide (k2 = k) = false := decide_eq_false hk
      simp only [hd]
      exact ih

theorem stepPair_erase (fw : List ℚ) (p c : ANode) :
    stepPair fw (eraseAN p, eraseAN c) = stepPair fw (p, c) := by
  unfold stepPair eraseAN
  rcases p with ⟨pd, pagg⟩
  cases pd <;> rfl

theorem pathLoop_erase : ∀ (pcs : List (ANode × ANode)) (fw : List ℚ),
    pathLoop fw (pcs.map (fun pc => (eraseAN pc.1, eraseAN pc.2))) = pathLoop fw pcs := by
  intro pcs
  induction pcs with
  | nil => intro fw; rfl
  | cons pc pcs ih =>
    intro fw
    rw [List.map_cons, pathLoop, pathLoop]
    rw [show (eraseAN pc.1, eraseAN pc.2) = ((eraseAN pc.1, eraseAN pc.2) : ANode × ANode)
      from rfl]
    rw [stepPair_erase fw pc.1 pc.2]
    rcases stepPair fw (pc.1, pc.2) with e | fw2
    · rfl
    · exact ih fw2

theorem headI_agg_map_erase (xs : List ANode) :
    (xs.map eraseAN).headI.agg = xs.headI.agg := by
  cases xs with
  | nil => rfl
  | cons x xs => rfl

theorem zip_tail_map {α β : Type} (f : α → β) (xs : List α) :
    ((xs.map f).zip (xs.map f).tail) = (xs.zip xs.tail).map (fun pc => (f pc.1, f pc.2)) := by
  induction xs with
  | nil => rfl
  | cons x xs ih =>
    cases xs with
    | nil => rfl
    | cons y ys =>
      simp only [List.map_cons, List.tail_cons, List.zip_cons_cons] at ih ⊢
      rw [ih]

theorem tfwOnTree_erase (fn : FeatureNames) (acc : ℚ × List ℚ) (t : Tree) (lid : Nat) :
    tfwOnTree fn acc (eraseMissing t) lid = tfwOnTree fn acc t lid := by
  unfold tfwOnTree
  rw [indexed_leafs_erase]
  rcases indexed_leafs t with e | idx
  · rfl
  · simp only [Except.map]
    rw [dictGet_erase]
    rcases dictGet idx lid with _ | en
    · rfl
    · simp only [Option.map]
      rw [show eraseAN en.1 :: List.map eraseAN en.2 = (en.1 :: en.2).map eraseAN from rfl]
      rw [← List.map_reverse, zip_tail_map, pathLoop_erase, headI_agg_map_erase]
      rcases pathLoop acc.2 ((en.1 :: en.2).reverse.zip (en.1 :: en.2).reverse.tail)
        with e2 | fw
      · rfl
      · rcases npAddAt fw fn.bias_idx (en.1 :: en.2).reverse.headI.agg with e3 | fw2
        · rfl
        · rw [show (eraseAN en.1).agg = en.1.agg from rfl]

/-- C9: noninterference of the missing branch id — dumps whose parses
agree after erasing every missing id decompose identically: equal scores
and equal contribution vectors for the same assigned leaf. -/
theorem c9_missing_noninterference (d1 d2 : List Char) (l : Nat) (fn : FeatureNames)
    (h : eraseParse (parse_tree_dump d1) = eraseParse (parse_tree_dump d2)) :
    target_feature_weights [l] [d1] fn = target_feature_weights [l] [d2] fn := by
  have hstep : tfwStep fn (0, List.replicate fn.len 0) (d1, l) =
      tfwStep fn (0, List.replicate fn.len 0) (d2, l) := by
    unfold tfwStep
    rcases h1 : parse_tree_dump d1 with e1 | o1 <;>
      rcases h2 : parse_tree_dump d2 with e2 | o2 <;>
      rw [h1, h2] at h
    · unfold eraseParse at h
      injection h with h
      subst h
      rfl
    · rcases o2 with _ | t2 <;> unfold eraseParse at h <;> cases h
    · rcases o1 with _ | t1 <;> unfold eraseParse at h <;> cases h
    · rcases o1 with _ | t1 <;> rcases o2 with _ | t2 <;> unfold eraseParse at h
      · rfl
      · cases h
      · cases h
      · injection h with h
        injection h with h
        show tfwOnTree fn (0, List.replicate fn.len 0) t1 l =
          tfwOnTree fn (0, List.replicate fn.len 0) t2 l
        rw [← tfwOnTree_erase fn (0, List.replicate fn.len 0) t1 l,
          ← tfwOnTree_erase fn (0, List.replicate fn.len 0) t2 l, h]
  rw [tfw_single, tfw_single, hstep]

theorem c9_missing_noninterference_witness :
    target_feature_weights [2] [dumpTab] fnSpec =
      target_feature_weights [2] [dumpTabM2] fnSpec :=
  c9_missing_noninterference dumpTab dumpTabM2 2 fnSpec rfl

theorem meanOKL_eq_all (ts : List ATree) : meanOKL ts = ts.all meanOK := by
  induction ts with
  | nil => rfl
  | cons t ts ih => rw [meanOKL, ih, List.all_cons]

theorem aggsOf_of_pointwise {r : List (List IndexEntry × ATree × ℚ)}
    (h : ∀ x ∈ r, x.2.1.aggO = some x.2.2) :
    aggsOf (r.map (fun x => x.2.1)) = some (r.map (fun x => x.2.2)) := by
  induction r with
  | nil => rfl
  | cons x r ih =>
    simp only [List.map_cons, aggsOf]
    rw [h x (by simp), ih (fun y hy => h y (by simp [hy]))]

theorem idxTree_meanOK :
    ∀ t : Tree, noLeafChildren t = true → ∀ es acs agg,
      idxTree t = .ok (es, acs, agg) →
      meanOKL acs = true ∧ ∃ vals, aggsOf acs = some vals ∧ agg = qmean vals := by
  apply treeRec (P := fun t => noLeafChildren t = true → ∀ es acs agg,
      idxTree t = .ok (es, acs, agg) →
      meanOKL acs = true ∧ ∃ vals, aggsOf acs = some vals ∧ agg = qmean vals)
    (Q := fun cs => noLeafChildrenL cs = true → ∀ r, idxKids cs = .ok r →
      ∀ x ∈ r, meanOK x.2.1 = true ∧ x.2.1.aggO = some x.2.2)
  · intro d cs hQ hn es acs agg h
    cases cs with
    | nil => exact absurd h (by simp [idxTree])
    | cons c cs' =>
      have hnl : noLeafChildrenL (c :: cs') = true := by
        cases d with
        | leaf nid v => rw [noLeafChildren] at hn; simp [List.isEmpty] at hn
        | branch dep nid s cq y n m => exact hn
      rw [idxTree] at h
      split at h
      · exact absurd h (by simp)
      · rename_i r hr
        injection h with h
        rw [Prod.mk.injEq, Prod.mk.injEq] at h
        obtain ⟨hes, hacs, hagg⟩ := h
        have hpt := hQ hnl r hr
        have hvals : aggsOf (r.map (fun x => x.2.1)) = some (r.map (fun x => x.2.2)) :=
          aggsOf_of_pointwise (fun x hx => (hpt x hx).2)
        subst hacs
        subst hagg
        refine ⟨?_, ⟨r.map (fun x => x.2.2), hvals, rfl⟩⟩
        rw [meanOKL_eq_all, List.all_eq_true]
        intro a ha
        obtain ⟨x, hx, rfl⟩ := List.mem_map.mp ha
        exact (hpt x hx).1
  · intro _ r h
    cases h
    intro x hx
    cases hx
  · intro t ts hP hQ hn r h
    rcases t with ⟨cd, ccs⟩
    simp only [noLeafChildrenL, Bool.and_eq_true] at hn
    cases cd with
    | leaf nid v =>
      have hccs : ccs = [] := by
        have hx := hn.1
        rw [noLeafChildren] at hx
        exact List.isEmpty_iff.mp hx
      subst hccs
      rw [idxKids] at h
      split at h
      · exact absurd h (by simp)
      · rename_i t2 ht2
        injection h with h
        subst h
        intro x hx
        rcases List.mem_cons.mp hx with rfl | hmem
        · exact ⟨by simp [castA, castAL, meanOK, meanOKL], rfl⟩
        · exact hQ hn.2 t2 ht2 x hmem
    | branch dep nid s cq y n m =>
      rw [idxKids] at h
      split at h
      · exact absurd h (by simp)
      · rename_i x2 hx2
        split at h
        · exact absurd h (by simp)
        · rename_i t2 ht2
          injection h with h
          subst h
          intro x hx
          rcases List.mem_cons.mp hx with rfl | hmem
          · have hnc : noLeafChildren (Tree.node (LineNode.branch dep nid s cq y n m) ccs)
                = true := hn.1
            obtain ⟨hm, vals, hv1, hv2⟩ := hP hnc x2.1 x2.2.1 x2.2.2
              (by rw [← hx2])
            refine ⟨?_, rfl⟩
            show ((match aggsOf x2.2.1 with
              | some vals => decide ((some x2.2.2 : Option ℚ) = some (qmean vals))
              | none => false) && meanOKL x2.2.1) = true
            rw [hv1]
            simp [hv2, hm]
          · exact hQ hn.2 t2 ht2 x hmem
      · simp

/-- C3 (amended): on a parsed tree whose root is a branch and in which no
leaf dict carries a children key, a successful run of `indexed_leafs`
leaves every node's final `leaf` value equal to the mean of its children's
final values (leaves keep their stored value). -/
theorem c3_aggregate_mean_amended (t : Tree) (idx : List IndexEntry) (ann : ATree)
    (hn : noLeafChildren t = true) (hr : rootIsBranch t = true)
    (hf : indexed_full t = .ok (idx, ann)) :
    meanOK ann = true := by
  rcases t with ⟨d, cs⟩
  cases d with
  | leaf nid v => exact absurd hr (by rw [rootIsBranch]; simp)
  | branch dep nid s cq y n m =>
    unfold indexed_full at hf
    rcases hx : idxTree (Tree.node (LineNode.branch dep nid s cq y n m) cs) with e | x <;>
      rw [hx] at hf
    · cases hf
    · simp only [Except.map] at hf
      injection hf with hf
      rw [Prod.mk.injEq] at hf
      obtain ⟨hidx, hann⟩ := hf
      obtain ⟨hm, vals, hv1, hv2⟩ := idxTree_meanOK _ hn x.1 x.2.1 x.2.2 (by rw [hx])
      rw [← hann]
      show ((match aggsOf x.2.1 with
        | some vals => decide ((some x.2.2 : Option ℚ) = some (qmean vals))
        | none => false) && meanOKL x.2.1) = true
      rw [hv1]
      simp [hv2, hm]

theorem c3_aggregate_mean_amended_witness :
    noLeafChildren treeTab = true ∧ rootIsBranch treeTab = true
  ∧ indexed_full treeTab = .ok (idxTab, annTab)
  ∧ meanOK annTab = true :=
  ⟨rfl, rfl, rfl, c3_aggregate_mean_amended treeTab idxTab annTab rfl rfl rfl⟩

theorem c3_counterexample_root_leaf_overwritten :
    parse_tree_dump dumpLeafRoot = .ok (some treeLeafRoot)
  ∧ indexed_full treeLeafRoot = .ok (idxLeafRoot, annLeafRoot)
  ∧ annLeafRoot.aggO = some (qmean [vI2])
  ∧ qmean [vI2] = 2 ∧ vI5 = 5
  ∧ meanOK annLeafRoot = false := by
  have h2d : ('2').toNat - 48 = 2 := rfl
  have h5d : ('5').toNat - 48 = 5 := rfl
  have hq2 : qmean [vI2] = 2 := by norm_num [qmean, vI2, decVal, natOfDigits, h2d]
  have hq5 : vI5 = 5 := by norm_num [vI5, decVal, natOfDigits, h5d]
  have hne : qmean [vI2] ≠ vI5 := by rw [hq2, hq5]; norm_num
  refine ⟨rfl, rfl, rfl, hq2, hq5, ?_⟩
  show (decide ((some (qmean [vI2]) : Option ℚ) = some vI5)
    && meanOKL [ATree.node (.leaf 1 vI2) (some vI2) []]) = false
  rw [decide_eq_false (by simpa using hne), Bool.false_and]

theorem idxTree_specLeaves :
    ∀ t : Tree, noLeafChildren t = true → ∀ d cs, t = .node d cs →
      ∀ es acs agg, idxTree t = .ok (es, acs, agg) → ∀ ancs,
        es.map (fun e => (e.1, e.2.1.agg, e.2.2.map ANode.data ++ ancs)) =
          specLeavesL (d :: ancs) cs := by
  apply treeRec (P := fun t => noLeafChildren t = true → ∀ d cs, t = .node d cs →
      ∀ es acs agg, idxTree t = .ok (es, acs, agg) → ∀ ancs,
        es.map (fun e => (e.1, e.2.1.agg, e.2.2.map ANode.data ++ ancs)) =
          specLeavesL (d :: ancs) cs)
    (Q := fun cs => noLeafChildrenL cs = true → ∀ r, idxKids cs = .ok r → ∀ ancs,
      ((r.map (fun x => x.1)).flatten).map
          (fun e => (e.1, e.2.1.agg, e.2.2.map ANode.data ++ ancs)) =
        specLeavesL ancs cs)
  · intro d cs hQ hn d2 cs2 heq es acs agg h ancs
    injection heq with hd hcs
    subst hd
    subst hcs
    cases cs with
    | nil => exact absurd h (by simp [idxTree])
    | cons c cs' =>
      have hnl : noLeafChildrenL (c :: cs') = true := by
        cases d with
        | leaf nid v => rw [noLeafChildren] at hn; simp [List.isEmpty] at hn
        | branch dep nid s cq y n m => exact hn
      rw [idxTree] at h
      split at h
      · exact absurd h (by simp)
      · rename_i r hr
        injection h with h
        rw [Prod.mk.injEq, Prod.mk.injEq] at h
        obtain ⟨hes, hacs, hagg⟩ := h
        subst hes
        rw [← hQ hnl r hr (d :: ancs), List.map_map]
        apply List.map_congr_left
        intro e he
        simp [Function.comp]
  · intro _ r h ancs
    cases h
    rfl
  · intro t ts hP hQ hn r h ancs
    rcases t with ⟨cd, ccs⟩
    simp only [noLeafChildrenL, Bool.and_eq_true] at hn
    cases cd with
    | leaf nid v =>
      have hccs : ccs = [] := by
        have hx := hn.1
        rw [noLeafChildren] at hx
        exact List.isEmpty_iff.mp hx
      subst hccs
      rw [idxKids] at h
      split at h
      · exact absurd h (by simp)
      · rename_i t2 ht2
        injection h with h
        subst h
        rw [show specLeavesL ancs (Tree.node (LineNode.leaf nid v) [] :: ts) =
          (nid, v, ancs) :: specLeavesL ancs ts from rfl]
        rw [← hQ hn.2 t2 ht2 ancs]
        rfl
    | branch dep nid s cq y n m =>
      rw [idxKids] at h
      split at h
      · exact absurd h (by simp)
      · rename_i x2 hx2
        split at h
        · exact absurd h (by simp)
        · rename_i t2 ht2
          injection h with h
          subst h
          rw [show specLeavesL ancs
              (Tree.node (LineNode.branch dep nid s cq y n m) ccs :: ts) =
            specLeavesL (LineNode.branch dep nid s cq y n m :: ancs) ccs ++
              specLeavesL ancs ts from rfl]
          rw [← hQ hn.2 t2 ht2 ancs,
            ← hP hn.1 (LineNode.branch dep nid s cq y n m) ccs rfl
              x2.1 x2.2.1 x2.2.2 (by rw [← hx2]) ancs]
          simp
      · simp

/-- C6 (amended): on a parsed tree whose root is a branch and in which no
leaf dict carries a children key, a successful `indexed_leafs` run indexes
exactly the reachable leaves, keyed by node id, each entry holding the
stored leaf value and the ancestor chain from the immediate parent to the
root. -/
theorem c6_leaf_index_amended (t : Tree) (idx : List IndexEntry)
    (hn : noLeafChildren t = true) (hr : rootIsBranch t = true)
    (hidx : indexed_leafs t = .ok idx) :
    idx.map (fun e => (e.1, e.2.1.agg, e.2.2.map ANode.data)) = specLeaves [] t
  ∧ idx.map (fun e => e.1) = allLeafIds t := by
  rcases t with ⟨d, cs⟩
  cases d with
  | leaf nid v => exact absurd hr (by rw [rootIsBranch]; simp)
  | branch dep nid s cq y n m =>
    unfold indexed_leafs at hidx
    rcases hx : idxTree (Tree.node (LineNode.branch dep nid s cq y n m) cs) with e | x <;>
      rw [hx] at hidx
    · cases hidx
    · simp only [Except.map] at hidx
      injection hidx with hidx
      have hmain := idxTree_specLeaves _ hn _ cs rfl x.1 x.2.1 x.2.2 (by rw [hx]) []
      have h1 : idx.map (fun e => (e.1, e.2.1.agg, e.2.2.map ANode.data)) =
          specLeaves [] (Tree.node (LineNode.branch dep nid s cq y n m) cs) := by
        rw [show specLeaves [] (Tree.node (LineNode.branch dep nid s cq y n m) cs) =
          specLeavesL [LineNode.branch dep nid s cq y n m] cs from rfl]
        rw [← hmain, ← hidx]
        simp
      refine ⟨h1, ?_⟩
      rw [allLeafIds, ← h1, List.map_map]
      rfl

theorem c6_counterexample_single_leaf_dump :
    parse_tree_dump dumpLeafOnly =
      .ok (some (Tree.node (.leaf 0 (decVal 1 (['1']) ([]) 0)) []))
  ∧ indexed_leafs (Tree.node (.leaf 0 (decVal 1 (['1']) ([]) 0)) []) =
      .error (.keyError ("children")) :=
  ⟨rfl, rfl⟩

theorem c6_leaf_index_amended_witness :
    noLeafChildren treeTab = true ∧ rootIsBranch treeTab = true
  ∧ indexed_leafs treeTab = .ok idxTab
  ∧ idxTab.map (fun e => (e.1, e.2.1.agg, e.2.2.map ANode.data)) = specLeaves [] treeTab
  ∧ idxTab.map (fun e => e.1) = allLeafIds treeTab :=
  ⟨rfl, rfl, rfl,
    (c6_leaf_index_amended treeTab idxTab rfl rfl rfl).1,
    (c6_leaf_index_amended treeTab idxTab rfl rfl rfl).2⟩

theorem zip_take_take {α β : Type} : ∀ (n : Nat) (l1 : List α) (l2 : List β),
    (l1.zip l2).take n = (l1.take n).zip (l2.take n) := by
  intro n
  induction n with
  | zero => intro l1 l2; rfl
  | succ n ih =>
    intro l1 l2
    cases l1 with
    | nil => rfl
    | cons a l1 =>
      cases l2 with
      | nil => rfl
      | cons b l2 =>
        simp only [List.zip_cons_cons, List.take_succ_cons, ih]

theorem zip_drop_drop {α β : Type} : ∀ (n : Nat) (l1 : List α) (l2 : List β),
    (l1.zip l2).drop n = (l1.drop n).zip (l2.drop n) := by
  intro n
  induction n with
  | zero => intro l1 l2; rfl
  | succ n ih =>
    intro l1 l2
    cases l1 with
    | nil => rfl
    | cons a l1 =>
      cases l2 with
      | nil => simp
      | cons b l2 =>
        simp only [List.zip_cons_cons, List.drop_succ_cons, ih]

theorem pyRange0_zero (n : Nat) (hn : 0 < n) : pyRange0 0 n = [] := by
  unfold pyRange0
  have h : (0 + n - 1) / n = 0 := Nat.div_eq_of_lt (by omega)
  rw [h]
  rfl

theorem pyRange0_step (L n : Nat) (hL : 0 < L) (hn : 0 < n) :
    pyRange0 L n = 0 :: (pyRange0 (L - n) n).map (fun s => s + n) := by
  unfold pyRange0
  have hc : (L + n - 1) / n = 1 + (L - n + n - 1) / n := by
    rcases Nat.lt_or_ge L n with hlt | hge
    · have h1 : (L + n - 1) / n = 1 := by
        apply Nat.div_eq_of_lt_le <;> omega
      have h2 : L - n = 0 := by omega
      rw [h1, h2]
      rw [Nat.div_eq_of_lt (by omega)]
    · have he : L + n - 1 = (L - n + n - 1) + n := by omega
      rw [he, Nat.add_div_right _ hn]
      omega
  rw [hc, Nat.add_comm 1, List.range_succ_eq_map]
  simp only [List.map_cons, Nat.zero_mul, List.map_map]
  congr 1
  apply List.map_congr_left
  intro i _
  simp only [Function.comp]
  rw [Nat.succ_mul]

theorem classLoop_shift (lids : List Nat) (tds : List (List Char)) (n : Nat)
    (fn : FeatureNames) : ∀ starts : List Nat,
    classLoop lids tds n fn (starts.map (fun s => s + n)) =
      classLoop (lids.drop n) (tds.drop n) n fn starts := by
  intro starts
  induction starts with
  | nil => rfl
  | cons s ss ih =>
    rw [List.map_cons, classLoop, classLoop]
    have h1 : lids.drop (s + n) = (lids.drop n).drop s := by
      rw [List.drop_drop, Nat.add_comm]
    have h2 : tds.drop (s + n) = (tds.drop n).drop s := by
      rw [List.drop_drop, Nat.add_comm]
    rw [h1, h2, ih]

theorem chunksGo_succ {α : Type} (n : Nat) (hn : 0 < n) :
    ∀ (f : Nat) (l : List α), l.length ≤ f →
      chunksGo n (f + 1) l = chunksGo n f l := by
  intro f
  induction f with
  | zero =>
    intro l hl
    have : l = [] := List.eq_nil_of_length_eq_zero (by omega)
    subst this
    rfl
  | succ f ih =>
    intro l hl
    cases l with
    | nil => rfl
    | cons x xs =>
      have h1 : chunksGo n (f + 1 + 1) (x :: xs)
          = (x :: xs).take n :: chunksGo n (f + 1) ((x :: xs).drop n) := rfl
      have h2 : chunksGo n (f + 1) (x :: xs)
          = (x :: xs).take n :: chunksGo n f ((x :: xs).drop n) := rfl
      rw [h1, h2, ih ((x :: xs).drop n) (by simp at hl ⊢; omega)]

theorem chunksGo_fuel {α : Type} (n : Nat) (hn : 0 < n) :
    ∀ (k f : Nat) (l : List α), l.length ≤ f →
      chunksGo n (f + k) l = chunksGo n f l := by
  intro k
  induction k with
  | zero => intro f l _; rfl
  | succ k ih =>
    intro f l hl
    rw [show f + (k + 1) = (f + k) + 1 from rfl,
      chunksGo_succ n hn (f + k) l (by omega), ih f l hl]

theorem chunks_cons {α : Type} (n : Nat) (hn : 0 < n) (x : α) (xs : List α) :
    chunks n (x :: xs) = (x :: xs).take n :: chunks n ((x :: xs).drop n) := by
  unfold chunks
  have h1 : chunksGo n (x :: xs).length (x :: xs)
      = (x :: xs).take n :: chunksGo n xs.length ((x :: xs).drop n) := rfl
  rw [h1]
  congr 1
  have hle : ((x :: xs).drop n).length ≤ xs.length := by simp; omega
  rw [show xs.length = ((x :: xs).drop n).length + (xs.length - ((x :: xs).drop n).length)
    from by omega]
  rw [chunksGo_fuel n hn _ _ _ (by omega)]

theorem classLoop_decompose (n : Nat) (fn : FeatureNames) (hn : 0 < n) :
    ∀ (L : Nat) (lids : List Nat) (tds : List (List Char)),
      lids.length = L → tds.length = L →
      classLoop lids tds n fn (pyRange0 L n) =
        decomposeChunks fn (chunks n (tds.zip lids)) := by
  intro L
  induction L using Nat.strong_induction_on with
  | _ L ih =>
    intro lids tds hl ht
    cases L with
    | zero =>
      have h1 : lids = [] := List.eq_nil_of_length_eq_zero hl
      have h2 : tds = [] := List.eq_nil_of_length_eq_zero ht
      subst h1; subst h2
      rw [pyRange0_zero n hn]
      rfl
    | succ L0 =>
      rw [pyRange0_step (L0 + 1) n (by omega) hn, classLoop]
      rcases tds with _ | ⟨d, tds0⟩
      · cases ht
      rcases lids with _ | ⟨l, lids0⟩
      · cases hl
      rw [List.zip_cons_cons, chunks_cons n hn, decomposeChunks]
      rw [show ((d, l) :: tds0.zip lids0).take n = ((d :: tds0).take n).zip
        ((l :: lids0).take n) from by rw [← List.zip_cons_cons, zip_take_take]]
      have hlen : ((d :: tds0).take n).length = ((l :: lids0).take n).length := by
        simp only [List.length_take]
        omega
      rw [List.map_snd_zip _ _ (by omega), List.map_fst_zip _ _ (by omega)]
      rw [show ((l :: lids0).drop 0) = l :: lids0 from rfl,
        show ((d :: tds0).drop 0) = d :: tds0 from rfl]
      rcases htfw : target_feature_weights ((l :: lids0).take n) ((d :: tds0).take n) fn
        with e | sw
      · rfl
      · rw [classLoop_shift, ih ((L0 + 1) - n) (by omega) ((l :: lids0).drop n)
          ((d :: tds0).drop n) (by simp at hl ⊢; omega) (by simp at ht ⊢; omega)]
        rw [show ((d, l) :: tds0.zip lids0).drop n = ((d :: tds0).drop n).zip
          ((l :: lids0).drop n) from by rw [← List.zip_cons_cons, zip_drop_drop]]


/-- C8 (amended): mismatched dump/leaf-id lengths raise an assertion
failure, and otherwise (any nonzero n_estimators, divisible or not) the
result decomposes the consecutive length-n chunks of the (dump, leaf)
sequence, the last chunk possibly short. -/
theorem c8_shape_handling_amended :
    (∀ (lids : List Nat) (tds : List (List Char)) (n : Nat) (fn : FeatureNames),
      tds.length ≠ lids.length →
      prediction_feature_weights lids tds n fn = .error .assertionError)
  ∧ (∀ (lids : List Nat) (tds : List (List Char)) (n : Nat) (fn : FeatureNames),
      n ≠ 0 → tds.length = lids.length →
      prediction_feature_weights lids tds n fn =
        decomposeChunks fn (chunks n (tds.zip lids))) := by
  constructor
  · intro lids tds n fn h
    unfold prediction_feature_weights
    rw [if_pos h]
  · intro lids tds n fn hn h
    unfold prediction_feature_weights
    rw [if_neg (not_not_intro h), if_neg hn]
    exact classLoop_decompose n fn (Nat.pos_of_ne_zero hn) lids.length lids tds rfl h

theorem c8_counterexample_nondivisible_accepted :
    (prediction_feature_weights [1, 1, 1, 1, 1] (List.replicate 5 dumpTab) 2 fnSpec).isOk
      = true
  ∧ ¬(5 % 2 = 0) :=
  ⟨rfl, by decide⟩

theorem c8_shape_handling_amended_witness :
    prediction_feature_weights [1] ([]) 2 fnSpec = .error .assertionError
  ∧ prediction_feature_weights [1, 1, 1, 1, 1, 1] (List.replicate 6 dumpTab) 2 fnSpec =
      decomposeChunks fnSpec (chunks 2 ((List.replicate 6 dumpTab).zip [1, 1, 1, 1, 1, 1])) :=
  ⟨c8_shape_handling_amended.1 [1] ([]) 2 fnSpec (by decide),
   c8_shape_handling_amended.2 [1, 1, 1, 1, 1, 1] (List.replicate 6 dumpTab) 2 fnSpec
     (by decide) (by decide)⟩

end Eli5Xgb
